import Mathlib

/-!
# Verification of NeptunIcalProxy (src/NeptunIcalProxy.py)

A shallow embedding of the request handler of `NeptunIcalProxy.py`.
Text is modelled as `List Char`, where each `Char` stands for one byte of
the Python `str` (the claims only exercise ASCII text, where the two views
coincide).  Stateful pieces (the module-level rate-limit counter) are
modelled by explicit state passing, the upstream fetch by an oracle
function, and the HTTP layer by a `Resp` result value.
-/

/-- The characters matched by Python's regex `\s` (and stripped by
`str.strip`) among code points below 256: space, tab, newline, carriage
return, vertical tab, form feed, the four information separators
U+001C-U+001F, next line U+0085 and no-break space U+00A0. -/
def isPySpace (c : Char) : Bool :=
  c = ' ' || c = '\t' || c = '\n' || c = '\r' || c = '\x0b' || c = '\x0c' ||
  c = '\x1c' || c = '\x1d' || c = '\x1e' || c = '\x1f' || c = '\x85' || c = '\xa0'

/-- Byte view of a string literal. -/
def strL (s : String) : List Char :=
  s.data

/-! ## `re.split(r"\n\s*\n", ical_data)` (line 144)

`sepTail l` implements the greedy match of `\s*\n` at the head of `l`:
it returns `some r` with `r` the remainder after the last `'\n'` inside
the maximal leading whitespace run (the greedy `\s*` backtracks to the
last position where the final `\n` can still match), and `none` when the
leading whitespace run contains no `'\n'`. -/
def sepTail : List Char → Option (List Char)
  | [] => none
  | c :: cs =>
    if c = '\n' then
      some (match sepTail cs with
        | some r => r
        | none => cs)
    else if isPySpace c then sepTail cs
    else none

/-- Match of the separator regex `\n\s*\n` at the head of the list;
`some r` returns the remainder after the (greedy, leftmost) match. -/
def matchSep : List Char → Option (List Char)
  | '\n' :: cs => sepTail cs
  | _ => none

theorem sepTail_length : ∀ {l r : List Char}, sepTail l = some r → r.length < l.length := by
  intro l
  induction l with
  | nil => intro r h; simp [sepTail] at h
  | cons c cs ih =>
    intro r h
    by_cases hc : c = '\n'
    · subst hc
      simp only [sepTail, if_pos rfl] at h
      cases hst : sepTail cs with
      | some r' =>
        rw [hst] at h
        have := ih hst
        simp at h
        subst h
        simp only [List.length_cons]
        omega
      | none =>
        rw [hst] at h
        simp at h
        subst h
        simp
    · by_cases hs : isPySpace c
      · rw [sepTail, if_neg hc, if_pos hs] at h
        have := ih h
        simp only [List.length_cons]
        omega
      · rw [sepTail, if_neg hc, if_neg hs] at h
        exact absurd h (by simp)

theorem matchSep_length : ∀ {l r : List Char}, matchSep l = some r → r.length < l.length := by
  intro l r h
  rw [matchSep.eq_def] at h
  split at h
  · have := sepTail_length h
    simp only [List.length_cons]
    omega
  · exact absurd h (by simp)

/-- The scanner behind `re.split`: scan left to right; at the first
position where the separator matches, cut the accumulated block and
continue after the match.  `acc` holds the current block reversed. -/
def splitGo (s : List Char) (acc : List Char) : List (List Char) :=
  match hsep : matchSep s with
  | some rest => acc.reverse :: splitGo rest []
  | none =>
    match s with
    | [] => [acc.reverse]
    | c :: cs => splitGo cs (c :: acc)
termination_by s.length
decreasing_by
  · exact matchSep_length hsep
  · simp

theorem splitGo_unfold (s acc : List Char) :
    splitGo s acc =
      match matchSep s with
      | some rest => acc.reverse :: splitGo rest []
      | none =>
        match s with
        | [] => [acc.reverse]
        | c :: cs => splitGo cs (c :: acc) := by
  rw [splitGo]
  split
  next rest h => rw [h]
  next h =>
    cases s with
    | nil => rfl
    | cons c cs =>
      conv_rhs => rw [h]

/-- `re.split(r"\n\s*\n", ical_data)`. -/
def splitBlocks (s : List Char) : List (List Char) :=
  splitGo s []

/-- Fuel-driven copy of `splitGo` (structural recursion on the fuel), used
to evaluate `splitBlocks` on concrete inputs inside the kernel. -/
def splitGoF : Nat → List Char → List Char → List (List Char)
  | 0, _, acc => [acc.reverse]
  | fuel + 1, s, acc =>
    match matchSep s with
    | some rest => acc.reverse :: splitGoF fuel rest []
    | none =>
      match s with
      | [] => [acc.reverse]
      | c :: cs => splitGoF fuel cs (c :: acc)

theorem splitGo_eq_splitGoF :
    ∀ (n : Nat) (s acc : List Char), s.length < n → splitGo s acc = splitGoF n s acc := by
  intro n
  induction n with
  | zero => intro s acc h; omega
  | succ n ih =>
    intro s acc h
    rw [splitGo_unfold]
    cases hm : matchSep s with
    | some rest =>
      have hlen := matchSep_length hm
      simp only [splitGoF, hm]
      rw [ih rest [] (by omega)]
    | none =>
      cases s with
      | nil => simp [splitGoF, hm]
      | cons c cs =>
        simp only [splitGoF, hm]
        exact ih cs (c :: acc) (by simp at h ⊢; omega)

theorem splitBlocks_exec (s : List Char) : splitBlocks s = splitGoF (s.length + 1) s [] :=
  splitGo_eq_splitGoF (s.length + 1) s [] (by omega)

/-! ## `re.search(r"SUMMARY:.*FALSE\s*$", event, re.IGNORECASE | re.MULTILINE)` (line 147)

`stripCI pat l` matches the literal pattern `pat` (given in lowercase)
case-insensitively at the head of `l` and returns the remainder.
`tailOk` is the match of `\s*$` in multiline mode: some run of whitespace
followed by the end of the string or a `'\n'` (the `$` of `re.MULTILINE`).
`findFalse` scans for `FALSE\s*$` reachable from the current position
through `.*` (which cannot cross a newline); `searchSummaryFalse`
scans every start position, as `re.search` does. -/
def stripCI : List Char → List Char → Option (List Char)
  | [], l => some l
  | _ :: _, [] => none
  | p :: ps, c :: cs => if c.toLower = p then stripCI ps cs else none

def tailOk : List Char → Bool
  | [] => true
  | c :: cs => if c = '\n' then true else if isPySpace c then tailOk cs else false

def findFalse : List Char → Bool
  | [] => false
  | c :: cs =>
    (match stripCI (strL "false") (c :: cs) with
      | some rest => tailOk rest
      | none => false)
    || (if c = '\n' then false else findFalse cs)

def searchSummaryFalse : List Char → Bool
  | [] => false
  | c :: cs =>
    (match stripCI (strL "summary:") (c :: cs) with
      | some rest => findFalse rest
      | none => false)
    || searchSummaryFalse cs

/-- `"\n\n".join(filtered_events_list)` (line 150). -/
def joinNN : List (List Char) → List Char
  | [] => []
  | [b] => b
  | b :: bs => b ++ '\n' :: '\n' :: joinNN bs

/-- `ICalRequestHandler.filter_ical_events` (lines 138-152): split the
document on `\n\s*\n`, drop the blocks where the `SUMMARY:.*FALSE\s*$`
search succeeds, and join the survivors with `"\n\n"`. -/
def filter_ical_events (s : List Char) : List Char :=
  joinNN ((splitBlocks s).filter (fun b => !(searchSummaryFalse b)))

example : splitGoF 20 (strL "a\n\n\n \n\nb") [] = [strL "a", strL "b"] := by decide
example : splitGoF 20 (strL "a\n\n b") [] = [strL "a", strL " b"] := by decide
example : splitGoF 20 (strL "a\r\n\nb") [] = [strL "a\r", strL "b"] := by decide
example : splitGoF 20 (strL "a\n \rx\nb") [] = [strL "a\n \rx\nb"] := by decide
example : splitGoF 20 (strL "a\n \n") [] = [strL "a", strL ""] := by decide
example : searchSummaryFalse (strL "SUMMARY:Trip to Budapest FALSE") = true := by decide
example : searchSummaryFalse (strL "SUMMARY:FALSE Alarm") = false := by decide
example : searchSummaryFalse (strL "SUMMARY:x false  \t") = true := by decide
example : searchSummaryFalse (strL "SUMMARY:x FALSE \r\nnext") = true := by decide
example : searchSummaryFalse (strL "SUMMARY:a FALSE x") = false := by decide
example : searchSummaryFalse (strL "A\nSUMMARY:B false\r") = true := by decide
example : splitGoF 20 (strL "a\n\x1c\nb") [] = [strL "a", strL "b"] := by decide
example : searchSummaryFalse (strL "SUMMARY:x FALSE\x1c") = true := by decide

/-! ## Line-based specification of the drop condition

The spec describes the dropped blocks as those containing a line with a
`SUMMARY:` field whose value, ignoring trailing whitespace, ends with the
token `FALSE`, case-insensitively.  We formalise that reading directly on
the lines of a block and prove it equivalent to the regex search above. -/

/-- Split on a single character, keeping empty parts (`str.split`-like). -/
def splitOnChar (d : Char) : List Char → List (List Char)
  | [] => [[]]
  | c :: cs =>
    if c = d then [] :: splitOnChar d cs
    else
      match splitOnChar d cs with
      | l :: ls => (c :: l) :: ls
      | [] => [[c]]

def noNl (l : List Char) : Bool :=
  l.all (fun c => !(c = '\n'))

def allSp (l : List Char) : Bool :=
  l.all isPySpace

/-- Within a single line: some position starts (case-insensitively) with
`FALSE` followed only by whitespace up to the end of the line. -/
def findFalseLine : List Char → Bool
  | [] => false
  | c :: cs =>
    (match stripCI (strL "false") (c :: cs) with
      | some r => allSp r
      | none => false)
    || findFalseLine cs

/-- Within a single line: some position starts (case-insensitively) with
`SUMMARY:` whose remainder ends in `FALSE` modulo trailing whitespace. -/
def lineSummaryFalse : List Char → Bool
  | [] => false
  | c :: cs =>
    (match stripCI (strL "summary:") (c :: cs) with
      | some r => findFalseLine r
      | none => false)
    || lineSummaryFalse cs

/-- The spec's description of the exclusion pattern: some line of the
block contains a `SUMMARY:` field ending (modulo trailing whitespace,
case-insensitively) with `FALSE`. -/
def specDrop (b : List Char) : Bool :=
  (splitOnChar '\n' b).any lineSummaryFalse

theorem stripCI_nil (l : List Char) : stripCI [] l = some l := rfl

theorem stripCI_pat_nil (p : Char) (ps : List Char) : stripCI (p :: ps) [] = none := rfl

theorem stripCI_cons (p : Char) (ps : List Char) (c : Char) (cs : List Char) :
    stripCI (p :: ps) (c :: cs) = if c.toLower = p then stripCI ps cs else none := rfl

theorem stripCI_append {pat : List Char} :
    ∀ {m r : List Char} (k : List Char), stripCI pat m = some r →
      stripCI pat (m ++ k) = some (r ++ k) := by
  induction pat with
  | nil =>
    intro m r k h
    rw [stripCI_nil] at h
    simp at h
    subst h
    rfl
  | cons p ps ih =>
    intro m r k h
    cases m with
    | nil => rw [stripCI_pat_nil] at h; exact absurd h (by simp)
    | cons c cs =>
      rw [stripCI_cons] at h
      rw [List.cons_append, stripCI_cons]
      by_cases hc : c.toLower = p
      · rw [if_pos hc] at h ⊢
        exact ih k h
      · rw [if_neg hc] at h
        exact absurd h (by simp)

theorem stripCI_none_append_nl {pat : List Char} (hp : ∀ p ∈ pat, p ≠ '\n') :
    ∀ {m : List Char} (k : List Char), stripCI pat m = none →
      stripCI pat (m ++ '\n' :: k) = none := by
  induction pat with
  | nil => intro m k h; rw [stripCI_nil] at h; exact absurd h (by simp)
  | cons p ps ih =>
    intro m k h
    cases m with
    | nil =>
      rw [List.nil_append, stripCI_cons, if_neg]
      intro hlow
      exact hp p (by simp) (by simpa using hlow.symm)
    | cons c cs =>
      rw [stripCI_cons] at h
      rw [List.cons_append, stripCI_cons]
      by_cases hc : c.toLower = p
      · rw [if_pos hc] at h ⊢
        exact ih (fun q hq => hp q (by simp [hq])) k h
      · rw [if_neg hc]

theorem stripCI_suffix {pat : List Char} :
    ∀ {m r : List Char}, stripCI pat m = some r → ∃ t, m = t ++ r := by
  induction pat with
  | nil =>
    intro m r h
    rw [stripCI_nil] at h
    simp at h
    exact ⟨[], by simp [h]⟩
  | cons p ps ih =>
    intro m r h
    cases m with
    | nil => rw [stripCI_pat_nil] at h; exact absurd h (by simp)
    | cons c cs =>
      rw [stripCI_cons] at h
      by_cases hc : c.toLower = p
      · rw [if_pos hc] at h
        obtain ⟨t, ht⟩ := ih h
        exact ⟨c :: t, by simp [ht]⟩
      · rw [if_neg hc] at h
        exact absurd h (by simp)

theorem noNl_cons {c : Char} {cs : List Char} (h : noNl (c :: cs) = true) :
    ¬ (c = '\n') ∧ noNl cs = true := by
  simp [noNl] at h ⊢
  exact ⟨h.1, h.2⟩

theorem noNl_append_left {m k : List Char} (h : noNl (m ++ k) = true) : noNl m = true := by
  simp [noNl] at h ⊢
  exact fun c hc => h.1 c hc

theorem tailOk_append_nl : ∀ {w : List Char}, noNl w = true →
    ∀ (k : List Char), tailOk (w ++ '\n' :: k) = allSp w := by
  intro w
  induction w with
  | nil => intro _ k; simp [tailOk, allSp]
  | cons c cs ih =>
    intro h k
    obtain ⟨hc, hcs⟩ := noNl_cons h
    rw [List.cons_append, tailOk, if_neg hc]
    by_cases hs : isPySpace c
    · rw [if_pos hs, ih hcs k]
      simp [allSp, hs]
    · rw [if_neg hs]
      simp [allSp, hs]

theorem tailOk_noNl : ∀ {w : List Char}, noNl w = true → tailOk w = allSp w := by
  intro w
  induction w with
  | nil => intro _; rfl
  | cons c cs ih =>
    intro h
    obtain ⟨hc, hcs⟩ := noNl_cons h
    rw [tailOk, if_neg hc]
    by_cases hs : isPySpace c
    · rw [if_pos hs, ih hcs]
      simp [allSp, hs]
    · rw [if_neg hs]
      simp [allSp, hs]

theorem noNl_append_right {m k : List Char} (h : noNl (m ++ k) = true) : noNl k = true := by
  simp [noNl] at h ⊢
  exact fun c hc => h.2 c hc

theorem findFalse_cons (c : Char) (cs : List Char) :
    findFalse (c :: cs) =
      ((match stripCI (strL "false") (c :: cs) with
        | some rest => tailOk rest
        | none => false)
      || (if c = '\n' then false else findFalse cs)) := rfl

theorem findFalseLine_cons (c : Char) (cs : List Char) :
    findFalseLine (c :: cs) =
      ((match stripCI (strL "false") (c :: cs) with
        | some r => allSp r
        | none => false)
      || findFalseLine cs) := rfl

theorem searchSummaryFalse_cons (c : Char) (cs : List Char) :
    searchSummaryFalse (c :: cs) =
      ((match stripCI (strL "summary:") (c :: cs) with
        | some rest => findFalse rest
        | none => false)
      || searchSummaryFalse cs) := rfl

theorem lineSummaryFalse_cons (c : Char) (cs : List Char) :
    lineSummaryFalse (c :: cs) =
      ((match stripCI (strL "summary:") (c :: cs) with
        | some r => findFalseLine r
        | none => false)
      || lineSummaryFalse cs) := rfl

theorem findFalse_append_nl : ∀ {m : List Char}, noNl m = true →
    ∀ (k : List Char), findFalse (m ++ '\n' :: k) = findFalseLine m := by
  intro m
  induction m with
  | nil =>
    intro _ k
    rw [List.nil_append, findFalse_cons]
    have h1 : stripCI (strL "false") ('\n' :: k) = none := by
      rw [show strL "false" = 'f' :: strL "alse" from rfl, stripCI_cons, if_neg (by decide)]
    rw [h1]
    simp [findFalseLine]
  | cons c m' ih =>
    intro h k
    obtain ⟨hc, hm'⟩ := noNl_cons h
    rw [List.cons_append, findFalse_cons, findFalseLine_cons, if_neg hc, ih hm' k]
    cases hsm : stripCI (strL "false") (c :: m') with
    | some r =>
      have := stripCI_append ('\n' :: k) hsm
      rw [List.cons_append] at this
      rw [this]
      obtain ⟨t, ht⟩ := stripCI_suffix hsm
      have hr : noNl r = true := noNl_append_right (ht ▸ h)
      simp only [tailOk_append_nl hr k]
    | none =>
      have := @stripCI_none_append_nl (strL "false") (by decide) (c :: m') k hsm
      rw [List.cons_append] at this
      rw [this]

theorem findFalse_noNl : ∀ {m : List Char}, noNl m = true → findFalse m = findFalseLine m := by
  intro m
  induction m with
  | nil => intro _; rfl
  | cons c m' ih =>
    intro h
    obtain ⟨hc, hm'⟩ := noNl_cons h
    rw [findFalse_cons, findFalseLine_cons, if_neg hc, ih hm']
    cases hsm : stripCI (strL "false") (c :: m') with
    | some r =>
      obtain ⟨t, ht⟩ := stripCI_suffix hsm
      have hr : noNl r = true := noNl_append_right (ht ▸ h)
      simp only [tailOk_noNl hr]
    | none => rfl

theorem search_append_nl : ∀ {L : List Char}, noNl L = true →
    ∀ (rest : List Char), searchSummaryFalse (L ++ '\n' :: rest) =
      (lineSummaryFalse L || searchSummaryFalse rest) := by
  intro L
  induction L with
  | nil =>
    intro _ rest
    rw [List.nil_append, searchSummaryFalse_cons]
    have h1 : stripCI (strL "summary:") ('\n' :: rest) = none := by
      rw [show strL "summary:" = 's' :: strL "ummary:" from rfl, stripCI_cons, if_neg (by decide)]
    rw [h1]
    simp [lineSummaryFalse]
  | cons c L' ih =>
    intro h rest
    obtain ⟨hc, hL'⟩ := noNl_cons h
    rw [List.cons_append, searchSummaryFalse_cons, lineSummaryFalse_cons, ih hL' rest]
    cases hsm : stripCI (strL "summary:") (c :: L') with
    | some r =>
      have := stripCI_append ('\n' :: rest) hsm
      rw [List.cons_append] at this
      rw [this]
      obtain ⟨t, ht⟩ := stripCI_suffix hsm
      have hr : noNl r = true := noNl_append_right (ht ▸ h)
      simp only [findFalse_append_nl hr rest, Bool.or_assoc]
    | none =>
      have := @stripCI_none_append_nl (strL "summary:") (by decide) (c :: L') rest hsm
      rw [List.cons_append] at this
      rw [this, Bool.or_assoc]

theorem search_noNl : ∀ {L : List Char}, noNl L = true →
    searchSummaryFalse L = lineSummaryFalse L := by
  intro L
  induction L with
  | nil => intro _; rfl
  | cons c L' ih =>
    intro h
    obtain ⟨hc, hL'⟩ := noNl_cons h
    rw [searchSummaryFalse_cons, lineSummaryFalse_cons, ih hL']
    cases hsm : stripCI (strL "summary:") (c :: L') with
    | some r =>
      obtain ⟨t, ht⟩ := stripCI_suffix hsm
      have hr : noNl r = true := noNl_append_right (ht ▸ h)
      simp only [findFalse_noNl hr]
    | none => rfl

theorem splitOnChar_append_nl : ∀ {L : List Char}, noNl L = true →
    ∀ (rest : List Char), splitOnChar '\n' (L ++ '\n' :: rest) =
      L :: splitOnChar '\n' rest := by
  intro L
  induction L with
  | nil => intro _ rest; simp [splitOnChar]
  | cons c L' ih =>
    intro h rest
    obtain ⟨hc, hL'⟩ := noNl_cons h
    rw [List.cons_append, splitOnChar, if_neg hc, ih hL' rest]

theorem splitOnChar_noNl : ∀ {b : List Char}, noNl b = true →
    splitOnChar '\n' b = [b] := by
  intro b
  induction b with
  | nil => intro _; rfl
  | cons c cs ih =>
    intro h
    obtain ⟨hc, hcs⟩ := noNl_cons h
    rw [splitOnChar, if_neg hc, ih hcs]

theorem firstLine_decomp : ∀ b : List Char,
    noNl b = true ∨ ∃ L rest, b = L ++ '\n' :: rest ∧ noNl L = true := by
  intro b
  induction b with
  | nil => left; rfl
  | cons c cs ih =>
    by_cases hc : c = '\n'
    · subst hc
      right
      exact ⟨[], cs, rfl, rfl⟩
    · rcases ih with hb | ⟨L, rest, hrest, hL⟩
      · left
        simp [noNl, hc]
        simp [noNl] at hb
        exact hb
      · right
        refine ⟨c :: L, rest, by simp [hrest], ?_⟩
        simp [noNl, hc]
        simp [noNl] at hL
        exact hL

/-- The regex search of line 147 agrees with the spec's line-based
description of the exclusion pattern. -/
theorem search_eq_specDrop (b : List Char) : searchSummaryFalse b = specDrop b := by
  rcases firstLine_decomp b with hb | ⟨L, rest, hrest, hL⟩
  · rw [search_noNl hb, specDrop, splitOnChar_noNl hb]
    simp
  · rw [hrest, search_append_nl hL rest, specDrop, splitOnChar_append_nl hL rest]
    simp only [List.any_cons]
    rw [show (splitOnChar '\n' rest).any lineSummaryFalse = specDrop rest from rfl,
      search_eq_specDrop rest]
termination_by b.length
decreasing_by simp [hrest]; omega

/-! ## Shape invariants of the blocks produced by the splitter

Used to show that joining the surviving blocks with `"\n\n"` and
re-splitting recovers exactly the same blocks (idempotence of the
filter).  `allNB l`: all characters are non-newline whitespace;
`leadNoNl l`: the maximal leading whitespace run of `l` contains no
newline; `leadSolid l`: the leading whitespace run (newline-free) is
followed by a non-whitespace character; `trailOk l`: `l` does not end
with a newline followed only by non-newline whitespace; `noSep l`: no
position of `l` matches the separator regex. -/
def allNB (l : List Char) : Bool :=
  l.all (fun c => isPySpace c && !(c = '\n'))

def leadNoNl : List Char → Bool
  | [] => true
  | c :: cs => if c = '\n' then false else if isPySpace c then leadNoNl cs else true

def leadSolid : List Char → Bool
  | [] => false
  | c :: cs => if c = '\n' then false else if isPySpace c then leadSolid cs else true

def trailOk : List Char → Bool
  | [] => true
  | c :: cs => (if c = '\n' then !(allNB cs) else true) && trailOk cs

def noSep : List Char → Bool
  | [] => true
  | c :: cs => (matchSep (c :: cs)).isNone && noSep cs

theorem matchSep_nl (l : List Char) : matchSep ('\n' :: l) = sepTail l := rfl

theorem matchSep_cons_ne {c : Char} (hc : ¬ (c = '\n')) (l : List Char) :
    matchSep (c :: l) = none := by
  rw [matchSep.eq_def]
  split
  next cs heq =>
    simp only [List.cons.injEq] at heq
    exact absurd heq.1 hc
  next => rfl

theorem matchSep_nil : matchSep [] = none := rfl

theorem sepTail_none_iff_leadNoNl : ∀ {l : List Char}, sepTail l = none ↔ leadNoNl l = true := by
  intro l
  induction l with
  | nil => simp [sepTail, leadNoNl]
  | cons c cs ih =>
    by_cases hc : c = '\n'
    · subst hc
      rw [sepTail, if_pos rfl, leadNoNl, if_pos rfl]
      simp
    · by_cases hs : isPySpace c
      · rw [sepTail, if_neg hc, if_pos hs, leadNoNl, if_neg hc, if_pos hs]
        exact ih
      · rw [sepTail, if_neg hc, if_neg hs, leadNoNl, if_neg hc, if_neg hs]
        simp

theorem leadSolid_leadNoNl : ∀ {l : List Char}, leadSolid l = true → leadNoNl l = true := by
  intro l
  induction l with
  | nil => intro h; simp [leadSolid] at h
  | cons c cs ih =>
    intro h
    by_cases hc : c = '\n'
    · rw [leadSolid, if_pos hc] at h
      exact absurd h (by simp)
    · by_cases hs : isPySpace c
      · rw [leadSolid, if_neg hc, if_pos hs] at h
        rw [leadNoNl, if_neg hc, if_pos hs]
        exact ih h
      · rw [leadNoNl, if_neg hc, if_neg hs]

theorem leadSolid_sepTail_append : ∀ {v : List Char}, leadSolid v = true →
    ∀ (w : List Char), sepTail (v ++ w) = none := by
  intro v
  induction v with
  | nil => intro h; simp [leadSolid] at h
  | cons c cs ih =>
    intro h w
    by_cases hc : c = '\n'
    · rw [leadSolid, if_pos hc] at h
      exact absurd h (by simp)
    · by_cases hs : isPySpace c
      · rw [leadSolid, if_neg hc, if_pos hs] at h
        rw [List.cons_append, sepTail, if_neg hc, if_pos hs]
        exact ih h w
      · rw [leadSolid, if_neg hc, if_neg hs] at h
        rw [List.cons_append, sepTail, if_neg hc, if_neg hs]

theorem sepTail_none_of_append : ∀ {v w : List Char}, sepTail (v ++ w) = none →
    sepTail v = none := by
  intro v
  induction v with
  | nil => intro w _; rfl
  | cons c cs ih =>
    intro w h
    rw [List.cons_append] at h
    by_cases hc : c = '\n'
    · rw [sepTail, if_pos hc] at h
      exact absurd h (by simp)
    · by_cases hs : isPySpace c
      · rw [sepTail, if_neg hc, if_pos hs] at h ⊢
        exact ih h
      · rw [sepTail, if_neg hc, if_neg hs]

theorem sepTail_none_append_of_not_allNB : ∀ {v : List Char}, sepTail v = none →
    allNB v = false → ∀ (w : List Char), sepTail (v ++ w) = none := by
  intro v
  induction v with
  | nil => intro _ h; simp [allNB] at h
  | cons c cs ih =>
    intro h hnb w
    by_cases hc : c = '\n'
    · rw [sepTail, if_pos hc] at h
      exact absurd h (by simp)
    · by_cases hs : isPySpace c
      · rw [sepTail, if_neg hc, if_pos hs] at h
        have hnb' : allNB cs = false := by
          have hstep : allNB (c :: cs) = ((isPySpace c && !(c = '\n')) && allNB cs) := rfl
          rw [hstep, hs] at hnb
          simpa [hc] using hnb
        rw [List.cons_append, sepTail, if_neg hc, if_pos hs]
        exact ih h hnb' w
      · rw [List.cons_append, sepTail, if_neg hc, if_neg hs]

theorem allNB_sepTail_ne_none : ∀ {v : List Char}, allNB v = true →
    ∀ (w : List Char), ¬ (sepTail (v ++ '\n' :: w) = none) := by
  intro v
  induction v with
  | nil =>
    intro _ w h
    rw [List.nil_append, sepTail, if_pos rfl] at h
    exact absurd h (by simp)
  | cons c cs ih =>
    intro hnb w h
    have hstep : allNB (c :: cs) = ((isPySpace c && !(c = '\n')) && allNB cs) := rfl
    rw [hstep] at hnb
    simp only [Bool.and_eq_true] at hnb
    obtain ⟨⟨hs, hcne⟩, hcs⟩ := hnb
    have hc : ¬ (c = '\n') := by simpa using hcne
    rw [List.cons_append, sepTail, if_neg hc, if_pos hs] at h
    exact ih hcs w h

theorem sepTail_some_leadNoNl : ∀ {l r : List Char}, sepTail l = some r →
    leadNoNl r = true := by
  intro l
  induction l with
  | nil => intro r h; simp [sepTail] at h
  | cons c cs ih =>
    intro r h
    by_cases hc : c = '\n'
    · subst hc
      rw [sepTail, if_pos rfl] at h
      cases hst : sepTail cs with
      | some r' =>
        rw [hst] at h
        simp at h
        subst h
        exact ih hst
      | none =>
        rw [hst] at h
        simp at h
        subst h
        exact sepTail_none_iff_leadNoNl.mp hst
    · by_cases hs : isPySpace c
      · rw [sepTail, if_neg hc, if_pos hs] at h
        exact ih h
      · rw [sepTail, if_neg hc, if_neg hs] at h
        exact absurd h (by simp)

theorem matchSep_none_of_append {v w : List Char} (h : matchSep (v ++ w) = none) :
    matchSep v = none := by
  cases v with
  | nil => rfl
  | cons c cs =>
    by_cases hc : c = '\n'
    · subst hc
      rw [List.cons_append, matchSep_nl] at h
      rw [matchSep_nl]
      exact sepTail_none_of_append h
    · exact matchSep_cons_ne hc cs

theorem matchSep_some_shape : ∀ {s r : List Char}, matchSep s = some r →
    ∃ s', s = '\n' :: s' ∧ sepTail s' = some r := by
  intro s r h
  cases s with
  | nil => exact absurd h (by simp [matchSep])
  | cons c cs =>
    by_cases hc : c = '\n'
    · subst hc
      exact ⟨cs, rfl, h⟩
    · rw [matchSep_cons_ne hc] at h
      exact absurd h (by simp)

theorem noSep_cons (c : Char) (cs : List Char) :
    noSep (c :: cs) = ((matchSep (c :: cs)).isNone && noSep cs) := rfl

theorem trailOk_cons (c : Char) (cs : List Char) :
    trailOk (c :: cs) = ((if c = '\n' then !(allNB cs) else true) && trailOk cs) := rfl

theorem noSep_of_suffixes : ∀ {b : List Char},
    (∀ u v : List Char, b = u ++ v → v ≠ [] → matchSep v = none) → noSep b = true := by
  intro b
  induction b with
  | nil => intro _; rfl
  | cons c cs ih =>
    intro h
    rw [noSep_cons, h [] (c :: cs) rfl (by simp)]
    simp only [Option.isNone_none, Bool.true_and]
    exact ih (fun u v huv hv => h (c :: u) v (by simp [huv]) hv)

theorem noSep_suffix_matchSep : ∀ (u : List Char) {b v : List Char}, noSep b = true →
    b = u ++ v → matchSep v = none := by
  intro u
  induction u with
  | nil =>
    intro b v hb hv
    rw [List.nil_append] at hv
    subst hv
    cases b with
    | nil => rfl
    | cons c cs =>
      rw [noSep_cons] at hb
      simp only [Bool.and_eq_true] at hb
      obtain ⟨h1, _⟩ := hb
      simpa [Option.isNone_iff_eq_none] using h1
  | cons x u' ih =>
    intro b v hb hv
    subst hv
    rw [List.cons_append, noSep_cons] at hb
    simp only [Bool.and_eq_true] at hb
    exact ih hb.2 rfl

theorem trailOk_no_bad_suffix : ∀ (u : List Char) {b w : List Char}, trailOk b = true →
    b = u ++ '\n' :: w → allNB w = false := by
  intro u
  induction u with
  | nil =>
    intro b w hb hw
    rw [List.nil_append] at hw
    subst hw
    rw [trailOk_cons, if_pos rfl] at hb
    simp only [Bool.and_eq_true] at hb
    simpa using hb.1
  | cons x u' ih =>
    intro b w hb hw
    subst hw
    rw [List.cons_append, trailOk_cons] at hb
    simp only [Bool.and_eq_true] at hb
    exact ih hb.2 rfl

theorem trailOk_false_decomp : ∀ {b : List Char}, trailOk b = false →
    ∃ u w, b = u ++ '\n' :: w ∧ allNB w = true := by
  intro b
  induction b with
  | nil => intro h; simp [trailOk] at h
  | cons c cs ih =>
    intro h
    rw [trailOk_cons] at h
    simp only [Bool.and_eq_false_iff] at h
    rcases h with h1 | h2
    · by_cases hc : c = '\n'
      · subst hc
        rw [if_pos rfl] at h1
        refine ⟨[], cs, rfl, ?_⟩
        simpa using h1
      · rw [if_neg hc] at h1
        exact absurd h1 (by simp)
    · obtain ⟨u, w, hw, hnb⟩ := ih h2
      exact ⟨c :: u, w, by simp [hw], hnb⟩

/-- Invariant carried by the splitter scan: no nonempty suffix of the
accumulated block starts a separator match when continued by the
remaining input. -/
def AccInv (s acc : List Char) : Prop :=
  ∀ u v : List Char, acc.reverse = u ++ v → v ≠ [] → matchSep (v ++ s) = none

theorem accInv_nil (s : List Char) : AccInv s [] := by
  intro u v huv hv
  exact absurd (List.append_eq_nil.mp huv.symm).2 hv

theorem accInv_step {s : List Char} {c : Char} {acc : List Char}
    (hinv : AccInv (c :: s) acc) (hm : matchSep (c :: s) = none) : AccInv s (c :: acc) := by
  intro u v huv hv
  rw [List.reverse_cons] at huv
  rcases List.append_eq_append_iff.mp huv with ⟨a', ha1, ha2⟩ | ⟨c', hc1, hc2⟩
  · cases a' with
    | nil =>
      simp at ha2
      subst ha2
      simpa using hm
    | cons y a'' =>
      simp only [List.cons_append, List.cons.injEq] at ha2
      rcases ha2 with ⟨_, ha3⟩
      exact absurd (List.append_eq_nil.mp ha3.symm).2 hv
  · cases c' with
    | nil =>
      simp at hc2
      subst hc2
      simpa using hm
    | cons y c'' =>
      have := hinv u (y :: c'') hc1 (by simp)
      rw [hc2]
      simpa using this

theorem accInv_noSep {s acc : List Char} (hinv : AccInv s acc) : noSep acc.reverse = true := by
  apply noSep_of_suffixes
  intro u v huv hv
  exact matchSep_none_of_append (hinv u v huv hv)

theorem accInv_trailOk {s acc rest : List Char} (hinv : AccInv s acc)
    (hm : matchSep s = some rest) : trailOk acc.reverse = true := by
  cases htr : trailOk acc.reverse with
  | true => rfl
  | false =>
    exfalso
    obtain ⟨u, w, hw, hnb⟩ := trailOk_false_decomp htr
    obtain ⟨s', hs', _⟩ := matchSep_some_shape hm
    have hnone := hinv u ('\n' :: w) hw (by simp)
    rw [List.cons_append, matchSep_nl, hs'] at hnone
    exact allNB_sepTail_ne_none hnb s' hnone

/-- Positional lead conditions: every block's leading whitespace run is
newline-free, and for every block followed by another one the leading
run ends at a non-whitespace character. -/
def leadChainAll : List (List Char) → Prop
  | [] => True
  | [b] => leadNoNl b = true
  | b :: bs => leadSolid b = true ∧ leadChainAll bs

/-- Positional trailing condition: every block followed by another one
satisfies `trailOk`. -/
def trailChain : List (List Char) → Prop
  | [] => True
  | [_] => True
  | b :: bs => trailOk b = true ∧ trailChain bs

theorem leadChainAll_single (b : List Char) : leadChainAll [b] = (leadNoNl b = true) := rfl

theorem leadChainAll_cons2 (b b' : List Char) (bs : List (List Char)) :
    leadChainAll (b :: b' :: bs) = (leadSolid b = true ∧ leadChainAll (b' :: bs)) := rfl

theorem trailChain_cons2 (b b' : List Char) (bs : List (List Char)) :
    trailChain (b :: b' :: bs) = (trailOk b = true ∧ trailChain (b' :: bs)) := rfl

theorem leadChainAll_tail_of : ∀ {bs : List (List Char)}, leadChainAll bs →
    leadChainAll bs.tail := by
  intro bs h
  cases bs with
  | nil => trivial
  | cons b bs' =>
    cases bs' with
    | nil => trivial
    | cons b' bs'' =>
      rw [leadChainAll_cons2] at h
      exact h.2

theorem trailChain_tail_of : ∀ {bs : List (List Char)}, trailChain bs →
    trailChain bs.tail := by
  intro bs h
  cases bs with
  | nil => trivial
  | cons b bs' =>
    cases bs' with
    | nil => trivial
    | cons b' bs'' =>
      rw [trailChain_cons2] at h
      exact h.2

theorem splitGo_ne_nil (s acc : List Char) : splitGo s acc ≠ [] := by
  rw [splitGo_unfold]
  cases hm : matchSep s with
  | some rest => simp
  | none =>
    cases s with
    | nil => simp
    | cons c cs => exact splitGo_ne_nil cs (c :: acc)
termination_by s.length
decreasing_by simp

theorem leadNoNl_append_nl_solid : ∀ {p k : List Char},
    leadNoNl (p ++ '\n' :: k) = true → leadSolid p = true := by
  intro p
  induction p with
  | nil =>
    intro k h
    rw [List.nil_append, leadNoNl, if_pos rfl] at h
    exact absurd h (by simp)
  | cons c cs ih =>
    intro k h
    rw [List.cons_append, leadNoNl] at h
    by_cases hc : c = '\n'
    · rw [if_pos hc] at h
      exact absurd h (by simp)
    · rw [if_neg hc] at h
      by_cases hs : isPySpace c
      · rw [if_pos hs] at h
        rw [leadSolid, if_neg hc, if_pos hs]
        exact ih h
      · rw [leadSolid, if_neg hc, if_neg hs]

theorem splitGo_through : ∀ (b k acc : List Char),
    (∀ u v : List Char, b = u ++ v → v ≠ [] → matchSep (v ++ k) = none) →
    splitGo (b ++ k) acc = splitGo k (b.reverse ++ acc) := by
  intro b
  induction b with
  | nil => intro k acc _; simp
  | cons c cs ih =>
    intro k acc h
    have h0 : matchSep (c :: (cs ++ k)) = none := by
      have := h [] (c :: cs) rfl (by simp)
      simpa using this
    rw [List.cons_append, splitGo_unfold]
    cases hm : matchSep (c :: (cs ++ k)) with
    | some rest => rw [h0] at hm; exact absurd hm (by simp)
    | none =>
      show splitGo (cs ++ k) (c :: acc) = splitGo k ((c :: cs).reverse ++ acc)
      rw [ih k (c :: acc) (fun u v huv hv => h (c :: u) v (by simp [huv]) hv)]
      congr 1
      simp

theorem splitGo_noSep_last : ∀ (b : List Char), noSep b = true →
    ∀ acc, splitGo b acc = [acc.reverse ++ b] := by
  intro b
  induction b with
  | nil =>
    intro _ acc
    rw [splitGo_unfold]
    simp [matchSep_nil]
  | cons c cs ih =>
    intro h acc
    rw [noSep_cons] at h
    simp only [Bool.and_eq_true] at h
    have hm : matchSep (c :: cs) = none := by
      simpa [Option.isNone_iff_eq_none] using h.1
    rw [splitGo_unfold]
    cases hm2 : matchSep (c :: cs) with
    | some rest => rw [hm] at hm2; exact absurd hm2 (by simp)
    | none =>
      show splitGo cs (c :: acc) = [acc.reverse ++ c :: cs]
      rw [ih h.2 (c :: acc)]
      simp

theorem splitGo_sep (rest acc : List Char) (h : sepTail rest = none) :
    splitGo ('\n' :: '\n' :: rest) acc = acc.reverse :: splitGo rest [] := by
  have hm : matchSep ('\n' :: '\n' :: rest) = some rest := by
    rw [matchSep_nl, sepTail, if_pos rfl, h]
  rw [splitGo_unfold, hm]

theorem splitGo_blocks_noSep (s acc : List Char) (hinv : AccInv s acc) :
    ∀ b ∈ splitGo s acc, noSep b = true := by
  rw [splitGo_unfold]
  cases hm : matchSep s with
  | some rest =>
    show ∀ b ∈ acc.reverse :: splitGo rest [], noSep b = true
    intro b hb
    rcases List.mem_cons.mp hb with rfl | hb2
    · exact accInv_noSep hinv
    · exact splitGo_blocks_noSep rest [] (accInv_nil rest) b hb2
  | none =>
    cases s with
    | nil =>
      show ∀ b ∈ [acc.reverse], noSep b = true
      intro b hb
      rcases List.mem_singleton.mp hb with rfl
      exact accInv_noSep hinv
    | cons c cs =>
      exact splitGo_blocks_noSep cs (c :: acc) (accInv_step hinv hm)
termination_by s.length
decreasing_by
  all_goals first
  | exact matchSep_length hm
  | simp_all

theorem splitGo_leadChain (s acc : List Char)
    (h : leadNoNl (acc.reverse ++ s) = true) : leadChainAll (splitGo s acc) := by
  rw [splitGo_unfold]
  cases hm : matchSep s with
  | some rest =>
    show leadChainAll (acc.reverse :: splitGo rest [])
    obtain ⟨s', hs', hst⟩ := matchSep_some_shape hm
    have hsolid : leadSolid acc.reverse = true := by
      rw [hs'] at h
      exact leadNoNl_append_nl_solid h
    have hrest : leadChainAll (splitGo rest []) :=
      splitGo_leadChain rest [] (by simpa using sepTail_some_leadNoNl hst)
    cases hsg : splitGo rest [] with
    | nil => exact absurd hsg (splitGo_ne_nil rest [])
    | cons b' bs' =>
      rw [leadChainAll_cons2]
      rw [hsg] at hrest
      exact ⟨hsolid, hrest⟩
  | none =>
    cases s with
    | nil =>
      show leadChainAll [acc.reverse]
      rw [leadChainAll_single]
      simpa using h
    | cons c cs =>
      show leadChainAll (splitGo cs (c :: acc))
      apply splitGo_leadChain cs (c :: acc)
      simpa using h
termination_by s.length
decreasing_by
  all_goals first
  | exact matchSep_length hm
  | simp_all

theorem splitGo_leadChain_tail (s acc : List Char) :
    leadChainAll ((splitGo s acc).tail) := by
  rw [splitGo_unfold]
  cases hm : matchSep s with
  | some rest =>
    show leadChainAll ((acc.reverse :: splitGo rest []).tail)
    simp only [List.tail_cons]
    obtain ⟨s', hs', hst⟩ := matchSep_some_shape hm
    exact splitGo_leadChain rest [] (by simpa using sepTail_some_leadNoNl hst)
  | none =>
    cases s with
    | nil => exact trivial
    | cons c cs => exact splitGo_leadChain_tail cs (c :: acc)
termination_by s.length
decreasing_by simp

theorem splitGo_trailChain (s acc : List Char) (hinv : AccInv s acc) :
    trailChain (splitGo s acc) := by
  rw [splitGo_unfold]
  cases hm : matchSep s with
  | some rest =>
    show trailChain (acc.reverse :: splitGo rest [])
    have htr := accInv_trailOk hinv hm
    have hrest := splitGo_trailChain rest [] (accInv_nil rest)
    cases hsg : splitGo rest [] with
    | nil => exact absurd hsg (splitGo_ne_nil rest [])
    | cons b' bs' =>
      rw [trailChain_cons2]
      rw [hsg] at hrest
      exact ⟨htr, hrest⟩
  | none =>
    cases s with
    | nil => exact trivial
    | cons c cs => exact splitGo_trailChain cs (c :: acc) (accInv_step hinv hm)
termination_by s.length
decreasing_by
  all_goals first
  | exact matchSep_length hm
  | simp_all

theorem joinNN_single (b : List Char) : joinNN [b] = b := rfl

theorem joinNN_cons2 (b b' : List Char) (bs : List (List Char)) :
    joinNN (b :: b' :: bs) = b ++ '\n' :: '\n' :: joinNN (b' :: bs) := rfl

theorem leadChain_head_sepTail : ∀ {bs : List (List Char)}, leadChainAll bs →
    bs ≠ [] → sepTail (joinNN bs) = none := by
  intro bs h hne
  cases bs with
  | nil => exact absurd rfl hne
  | cons b' bs' =>
    cases bs' with
    | nil =>
      rw [leadChainAll_single] at h
      rw [joinNN_single]
      exact sepTail_none_iff_leadNoNl.mpr h
    | cons b'' bs'' =>
      rw [leadChainAll_cons2] at h
      rw [joinNN_cons2]
      exact leadSolid_sepTail_append h.1 _

theorem block_no_sep_into (b k' : List Char) (hns : noSep b = true)
    (htr : trailOk b = true) :
    ∀ u v : List Char, b = u ++ v → v ≠ [] → matchSep (v ++ '\n' :: k') = none := by
  intro u v huv hv
  cases v with
  | nil => exact absurd rfl hv
  | cons c v' =>
    by_cases hc : c = '\n'
    · subst hc
      rw [List.cons_append, matchSep_nl]
      have hm : matchSep ('\n' :: v') = none := noSep_suffix_matchSep u hns huv
      rw [matchSep_nl] at hm
      have hnb : allNB v' = false := trailOk_no_bad_suffix u htr huv
      exact sepTail_none_append_of_not_allNB hm hnb ('\n' :: k')
    · rw [List.cons_append]
      exact matchSep_cons_ne hc _

/-- Joining blocks that satisfy the splitter's shape invariants with
`"\n\n"` and re-splitting recovers exactly the same list of blocks. -/
theorem joinNN_roundtrip : ∀ (bs : List (List Char)), bs ≠ [] →
    (∀ b ∈ bs, noSep b = true) → leadChainAll bs.tail → trailChain bs →
    splitGo (joinNN bs) [] = bs := by
  intro bs
  induction bs with
  | nil => intro h _ _ _; exact absurd rfl h
  | cons b bs' ih =>
    intro _ hns hlead htrail
    cases bs' with
    | nil =>
      rw [joinNN_single, splitGo_noSep_last b (hns b (by simp)) []]
      simp
    | cons b' bs'' =>
      rw [joinNN_cons2]
      have hnsb : noSep b = true := hns b (by simp)
      have htrb : trailOk b = true := by
        rw [trailChain_cons2] at htrail
        exact htrail.1
      have hleadtail : leadChainAll (b' :: bs'') := by
        simpa using hlead
      rw [splitGo_through b ('\n' :: '\n' :: joinNN (b' :: bs'')) []
        (block_no_sep_into b ('\n' :: joinNN (b' :: bs'')) hnsb htrb)]
      rw [splitGo_sep (joinNN (b' :: bs'')) (b.reverse ++ [])
        (leadChain_head_sepTail hleadtail (by simp))]
      rw [ih (by simp) (fun x hx => hns x (by simp [hx]))
        (leadChainAll_tail_of hleadtail)
        (by rw [trailChain_cons2] at htrail; exact htrail.2)]
      simp

theorem leadChainAll_filter (p : List Char → Bool) :
    ∀ {bs : List (List Char)}, leadChainAll bs → leadChainAll (bs.filter p) := by
  intro bs
  induction bs with
  | nil => intro _; exact trivial
  | cons b bs' ih =>
    intro h
    cases bs' with
    | nil =>
      rw [leadChainAll_single] at h
      by_cases hp : p b = true
      · rw [List.filter_cons_of_pos hp, List.filter_nil, leadChainAll_single]
        exact h
      · rw [List.filter_cons_of_neg (by simpa using hp), List.filter_nil]
        exact trivial
    | cons b' bs'' =>
      rw [leadChainAll_cons2] at h
      have hrest := ih h.2
      by_cases hp : p b = true
      · rw [List.filter_cons_of_pos hp]
        cases hf : (b' :: bs'').filter p with
        | nil => exact leadChainAll_single b ▸ leadSolid_leadNoNl h.1
        | cons x xs =>
          rw [hf] at hrest
          rw [leadChainAll_cons2]
          exact ⟨h.1, hrest⟩
      · rw [List.filter_cons_of_neg (by simpa using hp)]
        exact hrest

theorem trailChain_filter (p : List Char → Bool) :
    ∀ {bs : List (List Char)}, trailChain bs → trailChain (bs.filter p) := by
  intro bs
  induction bs with
  | nil => intro _; exact trivial
  | cons b bs' ih =>
    intro h
    cases bs' with
    | nil =>
      by_cases hp : p b = true
      · rw [List.filter_cons_of_pos hp, List.filter_nil]
        exact trivial
      · rw [List.filter_cons_of_neg (by simpa using hp), List.filter_nil]
        exact trivial
    | cons b' bs'' =>
      rw [trailChain_cons2] at h
      have hrest := ih h.2
      by_cases hp : p b = true
      · rw [List.filter_cons_of_pos hp]
        cases hf : (b' :: bs'').filter p with
        | nil => exact trivial
        | cons x xs =>
          rw [hf] at hrest
          rw [trailChain_cons2]
          exact ⟨h.1, hrest⟩
      · rw [List.filter_cons_of_neg (by simpa using hp)]
        exact hrest

theorem leadChainTail_filter (p : List Char → Bool) :
    ∀ {bs : List (List Char)}, leadChainAll bs.tail → leadChainAll (bs.filter p).tail := by
  intro bs h
  cases bs with
  | nil => exact trivial
  | cons b bs' =>
    simp only [List.tail_cons] at h
    by_cases hp : p b = true
    · rw [List.filter_cons_of_pos hp, List.tail_cons]
      exact leadChainAll_filter p h
    · rw [List.filter_cons_of_neg (by simpa using hp)]
      exact leadChainAll_tail_of (leadChainAll_filter p h)

theorem filter_self_filter (p : List Char → Bool) :
    ∀ (l : List (List Char)), (l.filter p).filter p = l.filter p := by
  intro l
  induction l with
  | nil => rfl
  | cons a l ih =>
    by_cases hp : p a = true
    · rw [List.filter_cons_of_pos hp, List.filter_cons_of_pos hp, ih]
    · rw [List.filter_cons_of_neg (by simpa using hp), ih]

theorem filter_ical_events_nil : filter_ical_events [] = [] := by
  have h0 : splitBlocks [] = [[]] := by
    rw [splitBlocks, splitGo_unfold]
    rfl
  rw [filter_ical_events, h0]
  rfl

/-- C7: `filter_ical_events` is idempotent — filtering an
already-filtered document returns it unchanged. -/
theorem claim_C7_filter_idempotent (s : List Char) :
    filter_ical_events (filter_ical_events s) = filter_ical_events s := by
  have hfs : filter_ical_events s =
      joinNN ((splitBlocks s).filter (fun b => !(searchSummaryFalse b))) := rfl
  cases hk : (splitBlocks s).filter (fun b => !(searchSummaryFalse b)) with
  | nil =>
    rw [hfs, hk]
    exact filter_ical_events_nil
  | cons b0 bs0 =>
    have hne : (splitBlocks s).filter (fun b => !(searchSummaryFalse b)) ≠ [] := by
      rw [hk]
      simp
    have h1 : ∀ b ∈ (splitBlocks s).filter (fun b => !(searchSummaryFalse b)),
        noSep b = true := by
      intro b hb
      exact splitGo_blocks_noSep s [] (accInv_nil s) b (List.mem_of_mem_filter hb)
    have h2 : leadChainAll ((splitBlocks s).filter (fun b => !(searchSummaryFalse b))).tail :=
      leadChainTail_filter _ (splitGo_leadChain_tail s [])
    have h3 : trailChain ((splitBlocks s).filter (fun b => !(searchSummaryFalse b))) :=
      trailChain_filter _ (splitGo_trailChain s [] (accInv_nil s))
    have hrt : splitBlocks
        (joinNN ((splitBlocks s).filter (fun b => !(searchSummaryFalse b)))) =
        (splitBlocks s).filter (fun b => !(searchSummaryFalse b)) :=
      joinNN_roundtrip _ hne h1 h2 h3
    rw [hfs, filter_ical_events, hrt, filter_self_filter]

/-- An event block whose SUMMARY value ends with ` FALSE`. -/
def blockA : List Char := strL "BEGIN:VEVENT\nSUMMARY:Trip to Budapest FALSE\nEND:VEVENT"

/-- An event block with a plain SUMMARY value. -/
def blockB : List Char := strL "BEGIN:VEVENT\nSUMMARY:Trip to Budapest\nEND:VEVENT"

/-- An event block whose SUMMARY value contains but does not end with `FALSE`. -/
def blockC : List Char := strL "BEGIN:VEVENT\nSUMMARY:FALSE Alarm\nEND:VEVENT"

/-- A calendar document holding the three blocks above. -/
def sampleDoc : List Char := blockA ++ '\n' :: '\n' :: (blockB ++ '\n' :: '\n' :: blockC)

set_option maxRecDepth 4000 in
theorem sample_split : splitBlocks sampleDoc = [blockA, blockB, blockC] := by
  rw [splitBlocks_exec]
  decide

set_option maxRecDepth 4000 in
theorem sample_filter : filter_ical_events sampleDoc = blockB ++ '\n' :: '\n' :: blockC := by
  rw [filter_ical_events, sample_split]
  decide

/-- C1: `filter_ical_events` splits the document into blank-line-separated
blocks, drops exactly the blocks with a SUMMARY line ending in FALSE
(case-insensitively, ignoring trailing whitespace), and rejoins the rest
with a double newline; a block containing the line
`SUMMARY:Trip to Budapest FALSE` is removed from any document, while
`SUMMARY:Trip to Budapest` and `SUMMARY:FALSE Alarm` blocks are kept. -/
theorem claim_C1_filter_events :
    (∀ s : List Char, filter_ical_events s =
      joinNN ((splitBlocks s).filter (fun b => !(specDrop b))))
    ∧ (∀ s b : List Char, b ∈ splitBlocks s →
        strL "SUMMARY:Trip to Budapest FALSE" ∈ splitOnChar '\n' b →
        ¬ b ∈ (splitBlocks s).filter (fun b => !(searchSummaryFalse b)))
    ∧ filter_ical_events sampleDoc = blockB ++ '\n' :: '\n' :: blockC
    ∧ specDrop blockA = true
    ∧ specDrop blockB = false
    ∧ specDrop blockC = false := by
  refine ⟨?_, ?_, sample_filter, by decide, by decide, by decide⟩
  · intro s
    rw [filter_ical_events]
    congr 1
    apply List.filter_congr
    intro b _
    rw [search_eq_specDrop]
  · intro s b _ hline
    have hs : specDrop b = true := by
      rw [specDrop]
      rw [List.any_eq_true]
      exact ⟨_, hline, by decide⟩
    intro hmem
    have hkeep := (List.mem_filter.mp hmem).2
    rw [search_eq_specDrop, hs] at hkeep
    simp at hkeep

theorem claim_C1_witness :
    blockA ∈ splitBlocks sampleDoc ∧
    strL "SUMMARY:Trip to Budapest FALSE" ∈ splitOnChar '\n' blockA ∧
    ¬ blockA ∈ (splitBlocks sampleDoc).filter (fun b => !(searchSummaryFalse b)) :=
  ⟨by rw [sample_split]; simp,
   by decide,
   claim_C1_filter_events.2.1 sampleDoc blockA (by rw [sample_split]; simp) (by decide)⟩

/-! ## `parse_url` (lines 123-136) and `urllib.parse.quote`/`unquote`

Strings are byte sequences in this model; `unquote` replaces `%XX` hex
escapes by the encoded byte and leaves any other `%` literal, exactly as
`urllib.parse.unquote` does at byte level.  It is total — the `except`
branch of `parse_url` (raising `ValueError("Invalid URL encoding")`) is
dead code. -/
def isHexDigit (c : Char) : Bool :=
  ('0' ≤ c && c ≤ '9') || ('a' ≤ c && c ≤ 'f') || ('A' ≤ c && c ≤ 'F')

def hexVal (c : Char) : Nat :=
  if '0' ≤ c && c ≤ '9' then c.toNat - '0'.toNat
  else if 'a' ≤ c && c ≤ 'f' then c.toNat - 'a'.toNat + 10
  else c.toNat - 'A'.toNat + 10

def unquote : List Char → List Char
  | '%' :: h1 :: h2 :: rest =>
    if isHexDigit h1 && isHexDigit h2 then
      Char.ofNat (16 * hexVal h1 + hexVal h2) :: unquote rest
    else '%' :: unquote (h1 :: h2 :: rest)
  | c :: cs => c :: unquote cs
  | [] => []

def stripSlash (path : List Char) : List Char :=
  match path with
  | '/' :: rest => rest
  | p => p

/-- `ICalRequestHandler.parse_url`: strip one leading `'/'`, return
`None` when the remainder is empty, else percent-decode it. -/
def parse_url (path : List Char) : Option (List Char) :=
  let p := stripSlash path
  if p = [] then none else some (unquote p)

/-- Characters `urllib.parse.quote` (default `safe='/'`) leaves
unescaped: ASCII letters, digits, `_`, `.`, `-`, `~` and `/`. -/
def quoteSafe (c : Char) : Bool :=
  ('A' ≤ c && c ≤ 'Z') || ('a' ≤ c && c ≤ 'z') || ('0' ≤ c && c ≤ '9') ||
  c = '_' || c = '.' || c = '-' || c = '~' || c = '/'

def hexDigitChar (n : Nat) : Char :=
  if n < 10 then Char.ofNat ('0'.toNat + n) else Char.ofNat ('A'.toNat + n - 10)

/-- `urllib.parse.quote` at byte level: safe bytes stay, any other byte
becomes `%` followed by two uppercase hex digits. -/
def quote : List Char → List Char
  | [] => []
  | c :: cs =>
    if quoteSafe c then c :: quote cs
    else '%' :: hexDigitChar (c.toNat / 16) :: hexDigitChar (c.toNat % 16) :: quote cs

/-! ## `urllib.parse.urlparse` — netloc and path

Modelled from CPython's `urlsplit`: leading C0-control/space characters
are stripped and every tab, CR and LF removed; a scheme
`alpha (alphanum | + | - | .)* :` before the first colon is split off;
`//` introduces the netloc, delimited by the first `/`, `?` or `#`;
unbalanced square brackets in the netloc raise
`ValueError("Invalid IPv6 URL")` (caught by `do_GET`'s outer
`except ValueError` and answered with 400); the path is the remainder
up to the first `?` or `#`. -/
def isAsciiAlpha (c : Char) : Bool :=
  ('A' ≤ c && c ≤ 'Z') || ('a' ≤ c && c ≤ 'z')

def isSchemeChar (c : Char) : Bool :=
  isAsciiAlpha c || ('0' ≤ c && c ≤ '9') || c = '+' || c = '-' || c = '.'

def schemeGo : List Char → Option (List Char × List Char)
  | [] => none
  | c :: cs =>
    if c = ':' then some ([], cs)
    else if isSchemeChar c then
      match schemeGo cs with
      | some sr => some (c :: sr.1, sr.2)
      | none => none
    else none

/-- Split a leading scheme `alpha (alphanum | + | - | .)* :` off the
URL, returning the lowercased scheme (empty when there is none, as in
CPython) and the remainder. -/
def schemeSplit : List Char → (List Char × List Char)
  | [] => ([], [])
  | c :: cs =>
    if isAsciiAlpha c then
      match schemeGo cs with
      | some sr => ((c :: sr.1).map Char.toLower, sr.2)
      | none => ([], c :: cs)
    else ([], c :: cs)

def netlocSplit : List Char → (List Char × List Char)
  | '/' :: '/' :: rest =>
    (rest.takeWhile (fun c => !(c = '/') && !(c = '?') && !(c = '#')),
     rest.dropWhile (fun c => !(c = '/') && !(c = '?') && !(c = '#')))
  | u => ([], u)

def pathOf (u : List Char) : List Char :=
  u.takeWhile (fun c => !(c = '?') && !(c = '#'))

def isC0OrSpace (c : Char) : Bool :=
  c.toNat ≤ 32

/-- CPython `urllib.parse.uses_params`: the schemes whose last path
segment may carry `;params` (the empty scheme included). -/
def uses_params : List (List Char) :=
  [strL "", strL "ftp", strL "hdl", strL "prospero", strL "http", strL "imap",
   strL "https", strL "shttp", strL "rtsp", strL "rtsps", strL "rtspu",
   strL "sip", strL "sips", strL "mms", strL "sftp", strL "tel"]

/-- CPython `urllib.parse._splitparams`, keeping only the path part:
when the path contains a `'/'`, cut at the first `';'` of the last
segment (leaving earlier segments untouched); otherwise cut at the
first `';'`. -/
def splitParams (p : List Char) : List Char :=
  if p.contains '/' then
    (p.reverse.dropWhile (fun c => !(c = '/'))).reverse ++
      (p.reverse.takeWhile (fun c => !(c = '/'))).reverse.takeWhile (fun c => !(c = ';'))
  else p.takeWhile (fun c => !(c = ';'))

/-- `urllib.parse.urlparse` (line 92), netloc and path components:
after removing unsafe bytes and a leading scheme, `//` introduces the
netloc (unbalanced square brackets raise
`ValueError("Invalid IPv6 URL")`); the path is the remainder up to the
first `'?'` or `'#'`, with `;params` split off its last segment when the
scheme is in `uses_params`. -/
def urlparseNP (u : List Char) : Except (List Char) (List Char × List Char) :=
  let u1 := (u.dropWhile isC0OrSpace).filter
    (fun c => !(c = '\t') && !(c = '\r') && !(c = '\n'))
  let sr := schemeSplit u1
  let np := netlocSplit sr.2
  if (np.1.contains '[' && !(np.1.contains ']')) ||
     (np.1.contains ']' && !(np.1.contains '[')) then
    Except.error (strL "Invalid IPv6 URL")
  else if uses_params.contains sr.1 && (pathOf np.2).contains ';' then
    Except.ok (np.1, splitParams (pathOf np.2))
  else Except.ok (np.1, pathOf np.2)

/-- Python `str.strip()` (same whitespace set as `isPySpace`). -/
def pyStrip (l : List Char) : List Char :=
  ((l.dropWhile isPySpace).reverse.dropWhile isPySpace).reverse

/-- `os.environ.get("ALLOWED_HOSTS", "").split(",")` with every entry
stripped (lines 89-90). -/
def allowedList (env : List Char) : List (List Char) :=
  (splitOnChar ',' env).map pyStrip

def startsWithL : List Char → List Char → Bool
  | [], _ => true
  | _ :: _, [] => false
  | p :: ps, c :: cs => p = c && startsWithL ps cs

/-- Python `str.endswith`. -/
def endsWithL (suf l : List Char) : Bool :=
  startsWithL suf.reverse l.reverse

/-! ## The request handler `do_GET` (lines 43-120) -/

/-- The module-level rate-limit state `(current_minute, request_count)`
(lines 39-40). -/
structure RL where
  minute : Nat
  count : Nat
deriving DecidableEq

/-- Oracle for `urllib.request.urlopen(url)` together with
`response.read().decode('utf-8')`.  `response` is `urlopen` returning
normally, which urllib's `HTTPErrorProcessor` allows only for 2xx
statuses (so line 104's `status != 200` relay can only see 2xx
statuses such as 204).  For every non-2xx status `urlopen` raises
`HTTPError` — a `URLError` subclass whose `str` is
`HTTP Error {code}: {reason}` — modelled by `httpError`; `urlError` is
any other `URLError` (network failure), and `exn` any other exception
(e.g. a non-HTTP URL type or an undecodable body). -/
inductive FetchResult where
  | response (status : Nat) (reason : List Char) (body : List Char)
  | httpError (status : Nat) (reason : List Char)
  | urlError (msg : List Char)
  | exn (msg : List Char)

/-- The observable HTTP response of one request. -/
inductive Resp where
  | landing
  | success (body : List Char)
  | err (code : Nat) (msg : List Char)
deriving DecidableEq

/-- The processing of a non-landing request after the rate limiter
(lines 83-120): decode the path (400 on failure), parse the target URL
(a `ValueError` from `urlparse` is caught by the outer handler → 400),
check the host allow-list (403), check the API endpoint suffix (403),
then fetch: a returned response with status other than 200 (necessarily
2xx) is relayed with that same status (line 105), an `HTTPError` — how
every non-2xx upstream status arrives — and any other `URLError` are
answered 500 by the `except URLError` arm (line 114), any other
exception 500 (line 116); on success the body is filtered and
returned. -/
def handle_request (allowedHostsEnv : List Char) (fetch : List Char → FetchResult)
    (path : List Char) : Resp :=
  match parse_url path with
  | none => Resp.err 400 (strL "Missing or invalid URL in path")
  | some url =>
    match urlparseNP url with
    | Except.error e => Resp.err 400 e
    | Except.ok np =>
      if !((allowedList allowedHostsEnv).contains np.1) &&
         !((allowedList allowedHostsEnv).contains (strL "*")) then
        Resp.err 403 (strL "Forbidden: Host not allowed")
      else if !(endsWithL (strL "/api/Calendar/CalendarExportFileToSyncronization") np.2) then
        Resp.err 403 (strL "Forbidden: Invalid API endpoint")
      else
        match fetch url with
        | FetchResult.response status reason body =>
          if !(status = 200) then Resp.err status (strL "Error fetching URL: " ++ reason)
          else Resp.success (filter_ical_events body)
        | FetchResult.httpError status reason =>
          Resp.err 500 (strL "Error fetching URL: HTTP Error " ++
            (Nat.repr status).data ++ strL ": " ++ reason)
        | FetchResult.urlError msg => Resp.err 500 (strL "Error fetching URL: " ++ msg)
        | FetchResult.exn msg => Resp.err 500 (strL "An unexpected error occurred: " ++ msg)

/-- Lines 73-75: reset the counter when the wall-clock minute changed. -/
def rlRoll (minute : Nat) (st : RL) : RL :=
  if st.minute ≠ minute then ⟨minute, 0⟩ else st

/-- `ICalRequestHandler.do_GET`.  Parameters: `MAX_REQUESTS_PER_MINUTE`,
`ALLOWED_HOSTS`, the fetch oracle, the current minute
`int(time() // 60)`, the global rate-limit state and the request path.
Returns the response and the new rate-limit state.  The landing page
(path `"/"`) is served before the rate limiter; every other request
first rolls the minute bucket, is answered 429 when
`request_count >= max_requests`, and otherwise increments the counter
and runs `handle_request`. -/
def do_GET (maxRequests : Nat) (allowedHostsEnv : List Char)
    (fetch : List Char → FetchResult) (minute : Nat) (st : RL)
    (path : List Char) : Resp × RL :=
  if path = strL "/" then (Resp.landing, st)
  else
    let st1 := rlRoll minute st
    if maxRequests ≤ st1.count then (Resp.err 429 (strL "Too Many Requests"), st1)
    else (handle_request allowedHostsEnv fetch path, ⟨st1.minute, st1.count + 1⟩)

deriving instance DecidableEq for Except

example : urlparseNP (strL "https://host/p?q") = Except.ok (strL "host", strL "/p") := by decide
example : urlparseNP (strL "example.com/api/x") = Except.ok ([], strL "example.com/api/x") := by
  decide
example : urlparseNP (strL "http://[::1/p") = Except.error (strL "Invalid IPv6 URL") := by decide
example : urlparseNP (strL "mailto:x@y") = Except.ok ([], strL "x@y") := by decide
example : urlparseNP (strL "1http://h/p") = Except.ok ([], strL "1http://h/p") := by decide
example : urlparseNP (strL "a+b://h/p") = Except.ok (strL "h", strL "/p") := by decide
set_option maxRecDepth 4000 in
example : urlparseNP (strL "https://h/api/Calendar/CalendarExportFileToSyncronization;x") =
  Except.ok (strL "h", strL "/api/Calendar/CalendarExportFileToSyncronization") := by decide
example : urlparseNP (strL "https://h/a;b/c") = Except.ok (strL "h", strL "/a;b/c") := by decide
example : urlparseNP (strL "noslash;x") = Except.ok ([], strL "noslash") := by decide
example : urlparseNP (strL "https://h/p;q?query;z#f;g") = Except.ok (strL "h", strL "/p") := by
  decide
example : urlparseNP (strL "mailto:a/b;c") = Except.ok ([], strL "a/b;c") := by decide
example : urlparseNP (strL "tel:123;x") = Except.ok ([], strL "123") := by decide
example : unquote (strL "%41%zz%%41a%20b") = strL "A%zz%Aa b" := by decide
example : allowedList (strL "") = [[]] := by decide
example : allowedList (strL " a , b ") = [strL "a", strL "b"] := by decide

theorem append_ne_head {c1 c2 : Char} {t1 r t2 : List Char} (h : ¬ (c1 = c2)) :
    ¬ ((c1 :: t1) ++ r = c2 :: t2) := by
  intro he
  rw [List.cons_append] at he
  simp only [List.cons.injEq] at he
  exact h he.1

theorem fetchErr_ne_tooMany (reason : List Char) :
    ¬ (strL "Error fetching URL: " ++ reason = strL "Too Many Requests") := by
  show ¬ (('E' :: strL "rror fetching URL: ") ++ reason = 'T' :: strL "oo Many Requests")
  exact append_ne_head (by decide)

theorem unexpected_ne_tooMany (msg : List Char) :
    ¬ (strL "An unexpected error occurred: " ++ msg = strL "Too Many Requests") := by
  show ¬ (('A' :: strL "n unexpected error occurred: ") ++ msg = 'T' :: strL "oo Many Requests")
  exact append_ne_head (by decide)

/-- `handle_request` can never produce the rate limiter's exact
response: every other 429 that might flow through (an upstream 429)
carries the `Error fetching URL: ` body. -/
theorem handle_request_ne_tooMany (env : List Char) (fetch : List Char → FetchResult)
    (p : List Char) :
    ¬ (handle_request env fetch p = Resp.err 429 (strL "Too Many Requests")) := by
  rw [handle_request.eq_def]
  split
  · simp
  · split
    · simp
    · split
      · simp
      · split
        · simp
        · split
          · split
            · intro he
              simp only [Resp.err.injEq] at he
              exact fetchErr_ne_tooMany _ he.2
            · simp
          · simp
          · intro he
            simp only [Resp.err.injEq] at he
            exact fetchErr_ne_tooMany _ he.2
          · intro he
            simp only [Resp.err.injEq] at he
            exact unexpected_ne_tooMany _ he.2

theorem do_GET_eq (maxR : Nat) (env : List Char) (fetch : List Char → FetchResult)
    (m : Nat) (st : RL) (p : List Char) (hp : ¬ (p = strL "/")) :
    do_GET maxR env fetch m st p =
      if maxR ≤ (rlRoll m st).count then
        (Resp.err 429 (strL "Too Many Requests"), rlRoll m st)
      else (handle_request env fetch p, ⟨(rlRoll m st).minute, (rlRoll m st).count + 1⟩) := by
  rw [do_GET, if_neg hp]

theorem rlRoll_of_ne {m : Nat} {st : RL} (h : ¬ (st.minute = m)) : rlRoll m st = ⟨m, 0⟩ := by
  rw [rlRoll, if_pos h]

theorem rlRoll_of_eq {m : Nat} {st : RL} (h : st.minute = m) : rlRoll m st = st := by
  rw [rlRoll, if_neg (by simp [h])]

theorem rlRoll_minute (m : Nat) (st : RL) : (rlRoll m st).minute = m := by
  by_cases h : st.minute = m
  · rw [rlRoll_of_eq h, h]
  · rw [rlRoll_of_ne h]

/-- C5 counterexample: ceiling 2, stored count 2 in the same minute —
the request is denied although the stored count does not strictly
exceed the ceiling (the source checks `>=`, not `>`). -/
theorem claim_C5_cex :
    (do_GET 2 [] (fun _ => FetchResult.urlError []) 7 ⟨7, 2⟩ (strL "/x")).1 =
      Resp.err 429 (strL "Too Many Requests") ∧ ¬ ((2 : Nat) > 2) := by
  constructor
  · decide
  · decide

/-- C5 (amended): the limiter resets the stored pair when the minute
bucket changed, denies with 429 exactly when the stored count after the
reset and before the increment is at least (`>=`, not strictly greater
than) the ceiling, and otherwise increments the count. -/
theorem claim_C5_rate_limiter (maxR : Nat) (env : List Char)
    (fetch : List Char → FetchResult) (m : Nat) (st : RL) (p : List Char)
    (hp : ¬ (p = strL "/")) :
    (st.minute = m →
      (((do_GET maxR env fetch m st p).1 = Resp.err 429 (strL "Too Many Requests")) ↔
        maxR ≤ st.count)
      ∧ (st.count < maxR → (do_GET maxR env fetch m st p).2 = ⟨m, st.count + 1⟩)
      ∧ (maxR ≤ st.count → (do_GET maxR env fetch m st p).2 = st))
    ∧ (¬ (st.minute = m) →
      (((do_GET maxR env fetch m st p).1 = Resp.err 429 (strL "Too Many Requests")) ↔
        maxR = 0)
      ∧ (0 < maxR → (do_GET maxR env fetch m st p).2 = ⟨m, 1⟩)
      ∧ (maxR = 0 → (do_GET maxR env fetch m st p).2 = ⟨m, 0⟩)) := by
  rw [do_GET_eq maxR env fetch m st p hp]
  constructor
  · intro h
    rw [rlRoll_of_eq h]
    by_cases hle : maxR ≤ st.count
    · rw [if_pos hle]
      refine ⟨⟨fun _ => hle, fun _ => rfl⟩, fun hlt => absurd hle (by omega), fun _ => rfl⟩
    · rw [if_neg hle]
      refine ⟨⟨fun he => absurd he (handle_request_ne_tooMany env fetch p),
        fun hle2 => absurd hle2 hle⟩, fun _ => by rw [h], fun hle2 => absurd hle2 hle⟩
  · intro h
    rw [rlRoll_of_ne h]
    by_cases h0 : maxR = 0
    · subst h0
      rw [if_pos (by simp)]
      exact ⟨⟨fun _ => rfl, fun _ => rfl⟩, fun h1 => absurd h1 (by omega), fun _ => rfl⟩
    · rw [if_neg (by simp; omega)]
      refine ⟨⟨fun he => absurd he (handle_request_ne_tooMany env fetch p),
        fun he => absurd he h0⟩, fun _ => rfl, fun he => absurd he h0⟩

theorem claim_C5_rate_limiter_witness :
    ((do_GET 1 [] (fun _ => FetchResult.urlError []) 3 ⟨3, 1⟩ (strL "/x")).1 =
      Resp.err 429 (strL "Too Many Requests")) ∧
    ((do_GET 1 [] (fun _ => FetchResult.urlError []) 3 ⟨3, 0⟩ (strL "/x")).2 = ⟨3, 1⟩) :=
  ⟨((claim_C5_rate_limiter 1 [] (fun _ => FetchResult.urlError []) 3 ⟨3, 1⟩ (strL "/x")
      (by decide)).1 rfl).1.mpr (by decide),
   ((claim_C5_rate_limiter 1 [] (fun _ => FetchResult.urlError []) 3 ⟨3, 0⟩ (strL "/x")
      (by decide)).1 rfl).2.1 (by decide)⟩

/-- C2: with ceiling 2 and a fresh minute m, the first two non-landing
requests pass the rate limiter (counts 1, then 2), the third is denied
with 429, and a request in the following minute passes again and leaves
the stored count at 1. -/
theorem claim_C2_three_requests (env : List Char) (fetch : List Char → FetchResult)
    (m : Nat) (st0 : RL) (p1 p2 p3 p4 : List Char)
    (h0 : ¬ (st0.minute = m))
    (h1 : ¬ (p1 = strL "/")) (h2 : ¬ (p2 = strL "/"))
    (h3 : ¬ (p3 = strL "/")) (h4 : ¬ (p4 = strL "/")) :
    (¬ ((do_GET 2 env fetch m st0 p1).1 = Resp.err 429 (strL "Too Many Requests")))
    ∧ (do_GET 2 env fetch m st0 p1).2 = ⟨m, 1⟩
    ∧ (¬ ((do_GET 2 env fetch m ⟨m, 1⟩ p2).1 = Resp.err 429 (strL "Too Many Requests")))
    ∧ (do_GET 2 env fetch m ⟨m, 1⟩ p2).2 = ⟨m, 2⟩
    ∧ (do_GET 2 env fetch m ⟨m, 2⟩ p3).1 = Resp.err 429 (strL "Too Many Requests")
    ∧ (do_GET 2 env fetch m ⟨m, 2⟩ p3).2 = ⟨m, 2⟩
    ∧ (¬ ((do_GET 2 env fetch (m + 1) ⟨m, 2⟩ p4).1 =
        Resp.err 429 (strL "Too Many Requests")))
    ∧ (do_GET 2 env fetch (m + 1) ⟨m, 2⟩ p4).2 = ⟨m + 1, 1⟩ := by
  have hne1 : ¬ (RL.minute ⟨m, 2⟩ = m + 1) := by simp
  refine ⟨?_, ?_, ?_, ?_, ?_, ?_, ?_, ?_⟩
  · rw [do_GET_eq 2 env fetch m st0 p1 h1, rlRoll_of_ne h0, if_neg (by simp)]
    exact handle_request_ne_tooMany env fetch p1
  · rw [do_GET_eq 2 env fetch m st0 p1 h1, rlRoll_of_ne h0, if_neg (by simp)]
  · rw [do_GET_eq 2 env fetch m ⟨m, 1⟩ p2 h2, @rlRoll_of_eq m ⟨m, 1⟩ rfl, if_neg (by simp)]
    exact handle_request_ne_tooMany env fetch p2
  · rw [do_GET_eq 2 env fetch m ⟨m, 1⟩ p2 h2, @rlRoll_of_eq m ⟨m, 1⟩ rfl, if_neg (by simp)]
  · rw [do_GET_eq 2 env fetch m ⟨m, 2⟩ p3 h3, @rlRoll_of_eq m ⟨m, 2⟩ rfl, if_pos (by simp)]
  · rw [do_GET_eq 2 env fetch m ⟨m, 2⟩ p3 h3, @rlRoll_of_eq m ⟨m, 2⟩ rfl, if_pos (by simp)]
  · rw [do_GET_eq 2 env fetch (m + 1) ⟨m, 2⟩ p4 h4, rlRoll_of_ne hne1, if_neg (by simp)]
    exact handle_request_ne_tooMany env fetch p4
  · rw [do_GET_eq 2 env fetch (m + 1) ⟨m, 2⟩ p4 h4, rlRoll_of_ne hne1, if_neg (by simp)]

theorem claim_C2_witness :
    (¬ ((do_GET 2 [] (fun _ => FetchResult.urlError []) 5 ⟨0, 0⟩ (strL "/x")).1 =
        Resp.err 429 (strL "Too Many Requests")))
    ∧ (do_GET 2 [] (fun _ => FetchResult.urlError []) 5 ⟨5, 2⟩ (strL "/x")).1 =
        Resp.err 429 (strL "Too Many Requests") :=
  ⟨(claim_C2_three_requests [] (fun _ => FetchResult.urlError []) 5 ⟨0, 0⟩
      (strL "/x") (strL "/x") (strL "/x") (strL "/x") (by decide)
      (by decide) (by decide) (by decide) (by decide)).1,
   (claim_C2_three_requests [] (fun _ => FetchResult.urlError []) 5 ⟨0, 0⟩
      (strL "/x") (strL "/x") (strL "/x") (strL "/x") (by decide)
      (by decide) (by decide) (by decide) (by decide)).2.2.2.2.1⟩

/-- C4 counterexample: with the ceiling already reached, a request whose
path fails to decode (empty path, `parse_url` returns `None`) is
answered 429 by the rate limiter, not 400 — rate limiting runs before
path decoding in the source (lines 66-87). -/
theorem claim_C4_cex :
    parse_url [] = none
    ∧ (do_GET 2 [] (fun _ => FetchResult.urlError []) 5 ⟨5, 2⟩ []).1 =
        Resp.err 429 (strL "Too Many Requests")
    ∧ ¬ ((do_GET 2 [] (fun _ => FetchResult.urlError []) 5 ⟨5, 2⟩ []).1 =
        Resp.err 400 (strL "Missing or invalid URL in path")) := by
  refine ⟨rfl, by decide, by decide⟩

/-- C4 (amended): for non-landing requests the order is rate limiting,
then path decoding, then allow-list/endpoint checks, then the upstream
fetch: the counter state is consulted and mutated before decoding; a
request over the ceiling is answered 429 no matter its path, without
touching the fetch oracle; a failing decode under the ceiling is
answered 400 with the counter already incremented, likewise
fetch-independently. -/
theorem claim_C4_pipeline_order (maxR : Nat) (env : List Char)
    (fetch fetch' : List Char → FetchResult) (m : Nat) (st : RL) (p : List Char)
    (hp : ¬ (p = strL "/")) :
    (maxR ≤ (rlRoll m st).count →
      do_GET maxR env fetch m st p = (Resp.err 429 (strL "Too Many Requests"), rlRoll m st)
      ∧ do_GET maxR env fetch m st p = do_GET maxR env fetch' m st p)
    ∧ ((rlRoll m st).count < maxR →
        (do_GET maxR env fetch m st p).2 = ⟨m, (rlRoll m st).count + 1⟩)
    ∧ ((rlRoll m st).count < maxR → parse_url p = none →
        do_GET maxR env fetch m st p =
          (Resp.err 400 (strL "Missing or invalid URL in path"), ⟨m, (rlRoll m st).count + 1⟩)
        ∧ do_GET maxR env fetch m st p = do_GET maxR env fetch' m st p) := by
  rw [do_GET_eq maxR env fetch m st p hp, do_GET_eq maxR env fetch' m st p hp]
  refine ⟨?_, ?_, ?_⟩
  · intro hle
    rw [if_pos hle, if_pos hle]
    exact ⟨rfl, rfl⟩
  · intro hlt
    rw [if_neg (by omega)]
    rw [rlRoll_minute]
  · intro hlt hnone
    rw [if_neg (by omega), if_neg (by omega)]
    have hh : ∀ f : List Char → FetchResult, handle_request env f p =
        Resp.err 400 (strL "Missing or invalid URL in path") := by
      intro f
      rw [handle_request.eq_def, hnone]
    rw [hh fetch, hh fetch', rlRoll_minute]
    exact ⟨rfl, rfl⟩

theorem claim_C4_pipeline_order_witness :
    do_GET 2 [] (fun _ => FetchResult.urlError []) 5 ⟨5, 2⟩ [] =
      (Resp.err 429 (strL "Too Many Requests"), rlRoll 5 ⟨5, 2⟩) :=
  ((claim_C4_pipeline_order 2 [] (fun _ => FetchResult.urlError [])
      (fun _ => FetchResult.exn []) 5 ⟨5, 2⟩ [] (by decide)).1 (by decide)).1

theorem handle_request_ok (env : List Char) (fetch : List Char → FetchResult)
    (p url netloc upath : List Char)
    (hparse : parse_url p = some url)
    (hnp : urlparseNP url = Except.ok (netloc, upath)) :
    handle_request env fetch p =
      if (!((allowedList env).contains netloc) &&
          !((allowedList env).contains (strL "*"))) = true then
        Resp.err 403 (strL "Forbidden: Host not allowed")
      else if (!(endsWithL (strL "/api/Calendar/CalendarExportFileToSyncronization")
          upath)) = true then
        Resp.err 403 (strL "Forbidden: Invalid API endpoint")
      else
        match fetch url with
        | FetchResult.response status reason body =>
          if (!(status = 200)) = true then
            Resp.err status (strL "Error fetching URL: " ++ reason)
          else Resp.success (filter_ical_events body)
        | FetchResult.httpError status reason =>
          Resp.err 500 (strL "Error fetching URL: HTTP Error " ++
            (Nat.repr status).data ++ strL ": " ++ reason)
        | FetchResult.urlError msg => Resp.err 500 (strL "Error fetching URL: " ++ msg)
        | FetchResult.exn msg => Resp.err 500 (strL "An unexpected error occurred: " ++ msg) := by
  simp only [handle_request, hparse, hnp]

/-- C3: once a request passes the rate limiter, path decoding and both
authorization checks, a non-200 (non-2xx) upstream status is answered
500: `urlopen` raises `HTTPError` for every non-2xx status, so e.g. an
upstream 404 reaches the `except URLError` arm (line 114) and is
answered 500 with the plain-text body
`Error fetching URL: HTTP Error {status}: {reason}`, which includes the
upstream's status and reason; any other network failure (`URLError`) is
likewise answered 500 with a body naming the error. -/
theorem claim_C3_upstream_500 (maxR : Nat) (env : List Char)
    (fetch : List Char → FetchResult) (m : Nat) (st : RL)
    (p url netloc upath : List Char)
    (hp : ¬ (p = strL "/")) (hlim : (rlRoll m st).count < maxR)
    (hparse : parse_url p = some url)
    (hnp : urlparseNP url = Except.ok (netloc, upath))
    (hhost : (allowedList env).contains netloc = true ∨
             (allowedList env).contains (strL "*") = true)
    (hend : endsWithL (strL "/api/Calendar/CalendarExportFileToSyncronization") upath = true) :
    (∀ status reason, fetch url = FetchResult.httpError status reason →
      (do_GET maxR env fetch m st p).1 =
        Resp.err 500 (strL "Error fetching URL: HTTP Error " ++
          (Nat.repr status).data ++ strL ": " ++ reason))
    ∧ (∀ msg, fetch url = FetchResult.urlError msg →
      (do_GET maxR env fetch m st p).1 =
        Resp.err 500 (strL "Error fetching URL: " ++ msg)) := by
  have hcond : (!((allowedList env).contains netloc) &&
      !((allowedList env).contains (strL "*"))) = false := by
    rcases hhost with h | h
    · rw [h]
      simp
    · rw [h]
      simp
  have hmain : (do_GET maxR env fetch m st p).1 = handle_request env fetch p := by
    rw [do_GET_eq maxR env fetch m st p hp, if_neg (by omega)]
  rw [hmain, handle_request_ok env fetch p url netloc upath hparse hnp,
    if_neg (by rw [hcond]; simp), if_neg (by rw [hend]; simp)]
  refine ⟨?_, ?_⟩
  · intro status reason hf
    simp only [hf]
  · intro msg hf
    simp only [hf]

set_option maxRecDepth 4000 in
theorem claim_C3_witness :
    (do_GET 1 (strL "*") (fun _ => FetchResult.httpError 404 (strL "Not Found")) 0 ⟨1, 0⟩
      ('/' :: strL "https://x/api/Calendar/CalendarExportFileToSyncronization")).1 =
      Resp.err 500 (strL "Error fetching URL: HTTP Error 404: Not Found") := by
  rw [(claim_C3_upstream_500 1 (strL "*")
    (fun _ => FetchResult.httpError 404 (strL "Not Found")) 0 ⟨1, 0⟩
    ('/' :: strL "https://x/api/Calendar/CalendarExportFileToSyncronization")
    (strL "https://x/api/Calendar/CalendarExportFileToSyncronization")
    (strL "x") (strL "/api/Calendar/CalendarExportFileToSyncronization")
    (by decide) (by decide) (by decide) (by decide) (Or.inr (by decide))
    (by decide)).1 404 (strL "Not Found") rfl]
  decide

/-- C6: a decoded target URL whose parsed netloc is outside the
allow-list (no wildcard configured) is answered
403 "Forbidden: Host not allowed", and one passing the host check whose
parsed path does not end in `/api/Calendar/CalendarExportFileToSyncronization`
is answered 403 "Forbidden: Invalid API endpoint"; in both cases the
result is independent of the fetch oracle — no upstream fetch happens. -/
theorem claim_C6_forbidden (maxR : Nat) (env : List Char)
    (fetch fetch' : List Char → FetchResult) (m : Nat) (st : RL)
    (p url netloc upath : List Char)
    (hp : ¬ (p = strL "/")) (hlim : (rlRoll m st).count < maxR)
    (hparse : parse_url p = some url)
    (hnp : urlparseNP url = Except.ok (netloc, upath)) :
    ((allowedList env).contains netloc = false →
     (allowedList env).contains (strL "*") = false →
      (do_GET maxR env fetch m st p).1 = Resp.err 403 (strL "Forbidden: Host not allowed")
      ∧ do_GET maxR env fetch m st p = do_GET maxR env fetch' m st p)
    ∧ (((allowedList env).contains netloc = true ∨
        (allowedList env).contains (strL "*") = true) →
       endsWithL (strL "/api/Calendar/CalendarExportFileToSyncronization") upath = false →
      (do_GET maxR env fetch m st p).1 = Resp.err 403 (strL "Forbidden: Invalid API endpoint")
      ∧ do_GET maxR env fetch m st p = do_GET maxR env fetch' m st p) := by
  have hmain : ∀ f : List Char → FetchResult, do_GET maxR env f m st p =
      (handle_request env f p, ⟨m, (rlRoll m st).count + 1⟩) := by
    intro f
    rw [do_GET_eq maxR env f m st p hp, if_neg (by omega), rlRoll_minute]
  constructor
  · intro hn hw
    have hcond : (!((allowedList env).contains netloc) &&
        !((allowedList env).contains (strL "*"))) = true := by
      rw [hn, hw]
      simp
    have hres : ∀ f : List Char → FetchResult, handle_request env f p =
        Resp.err 403 (strL "Forbidden: Host not allowed") := by
      intro f
      rw [handle_request_ok env f p url netloc upath hparse hnp, if_pos hcond]
    refine ⟨?_, ?_⟩
    · rw [hmain fetch, hres fetch]
    · rw [hmain fetch, hmain fetch', hres fetch, hres fetch']
  · intro hhost hend
    have hcond : (!((allowedList env).contains netloc) &&
        !((allowedList env).contains (strL "*"))) = false := by
      rcases hhost with h | h
      · rw [h]
        simp
      · rw [h]
        simp
    have hres : ∀ f : List Char → FetchResult, handle_request env f p =
        Resp.err 403 (strL "Forbidden: Invalid API endpoint") := by
      intro f
      rw [handle_request_ok env f p url netloc upath hparse hnp,
        if_neg (by rw [hcond]; simp), if_pos (by rw [hend]; simp)]
    refine ⟨?_, ?_⟩
    · rw [hmain fetch, hres fetch]
    · rw [hmain fetch, hmain fetch', hres fetch, hres fetch']

set_option maxRecDepth 4000 in
theorem claim_C6_witness :
    (do_GET 1 (strL "") (fun _ => FetchResult.urlError []) 0 ⟨1, 0⟩
      ('/' :: strL "https://evil/api/Calendar/CalendarExportFileToSyncronization")).1 =
      Resp.err 403 (strL "Forbidden: Host not allowed") :=
  ((claim_C6_forbidden 1 (strL "") (fun _ => FetchResult.urlError [])
    (fun _ => FetchResult.exn []) 0 ⟨1, 0⟩
    ('/' :: strL "https://evil/api/Calendar/CalendarExportFileToSyncronization")
    (strL "https://evil/api/Calendar/CalendarExportFileToSyncronization")
    (strL "evil") (strL "/api/Calendar/CalendarExportFileToSyncronization")
    (by decide) (by decide) (by decide) (by decide)).1 (by decide) (by decide)).1

theorem handle_request_pass_ne_host (env : List Char) (fetch : List Char → FetchResult)
    (p url netloc upath : List Char)
    (hparse : parse_url p = some url)
    (hnp : urlparseNP url = Except.ok (netloc, upath))
    (hcond : (!((allowedList env).contains netloc) &&
        !((allowedList env).contains (strL "*"))) = false) :
    ¬ (handle_request env fetch p = Resp.err 403 (strL "Forbidden: Host not allowed")) := by
  rw [handle_request_ok env fetch p url netloc upath hparse hnp,
    if_neg (by rw [hcond]; simp)]
  split
  · intro he
    simp only [Resp.err.injEq] at he
    exact absurd he.2 (by decide)
  · split
    · split
      · intro he
        simp only [Resp.err.injEq] at he
        revert he
        show ¬ (_ ∧ ('E' :: strL "rror fetching URL: ") ++ _ =
          'F' :: strL "orbidden: Host not allowed")
        intro he
        exact append_ne_head (by decide) he.2
      · simp
    · simp
    · intro he
      simp only [Resp.err.injEq] at he
      revert he
      show ¬ (_ ∧ ('E' :: strL "rror fetching URL: ") ++ _ =
        'F' :: strL "orbidden: Host not allowed")
      intro he
      exact append_ne_head (by decide) he.2
    · intro he
      simp only [Resp.err.injEq] at he
      revert he
      show ¬ (_ ∧ ('A' :: strL "n unexpected error occurred: ") ++ _ =
        'F' :: strL "orbidden: Host not allowed")
      intro he
      exact append_ne_head (by decide) he.2

/-- C9: with `ALLOWED_HOSTS` unset or empty the computed allow-list is
`[""]`, so a decoded target URL whose parsed netloc is empty (for
example `example.com/api/...` written without a `//` authority) passes
the host check and is never answered 403 "Forbidden: Host not allowed". -/
theorem claim_C9_empty_host_allowed (maxR : Nat) (fetch : List Char → FetchResult)
    (m : Nat) (st : RL) (p url upath : List Char)
    (hparse : parse_url p = some url)
    (hnp : urlparseNP url = Except.ok ([], upath)) :
    allowedList (strL "") = [[]]
    ∧ ¬ ((do_GET maxR (strL "") fetch m st p).1 =
        Resp.err 403 (strL "Forbidden: Host not allowed")) := by
  refine ⟨rfl, ?_⟩
  have hp : ¬ (p = strL "/") := by
    intro hp0
    rw [hp0, show parse_url (strL "/") = none from by decide] at hparse
    exact absurd hparse (by simp)
  rw [do_GET_eq maxR (strL "") fetch m st p hp]
  by_cases hle : maxR ≤ (rlRoll m st).count
  · rw [if_pos hle]
    simp
  · rw [if_neg hle]
    show ¬ (handle_request (strL "") fetch p = Resp.err 403 (strL "Forbidden: Host not allowed"))
    exact handle_request_pass_ne_host (strL "") fetch p url [] upath hparse hnp (by decide)

set_option maxRecDepth 4000 in
theorem claim_C9_witness :
    ¬ ((do_GET 60 (strL "") (fun _ => FetchResult.urlError []) 0 ⟨0, 0⟩
      ('/' :: strL "example.com/api/Calendar/CalendarExportFileToSyncronization")).1 =
      Resp.err 403 (strL "Forbidden: Host not allowed")) :=
  (claim_C9_empty_host_allowed 60 (fun _ => FetchResult.urlError []) 0 ⟨0, 0⟩
    ('/' :: strL "example.com/api/Calendar/CalendarExportFileToSyncronization")
    (strL "example.com/api/Calendar/CalendarExportFileToSyncronization")
    (strL "example.com/api/Calendar/CalendarExportFileToSyncronization")
    (by decide) (by decide)).2

theorem hexDigitChar_spec (n : Nat) (hn : n < 16) :
    isHexDigit (hexDigitChar n) = true ∧ hexVal (hexDigitChar n) = n :=
  (by decide : ∀ m : Fin 16, isHexDigit (hexDigitChar (m : Nat)) = true ∧
    hexVal (hexDigitChar (m : Nat)) = (m : Nat)) ⟨n, hn⟩

theorem unquote_percent (h1 h2 : Char) (rest : List Char) :
    unquote ('%' :: h1 :: h2 :: rest) =
      if isHexDigit h1 && isHexDigit h2 then
        Char.ofNat (16 * hexVal h1 + hexVal h2) :: unquote rest
      else '%' :: unquote (h1 :: h2 :: rest) := rfl

theorem unquote_cons_ne {c : Char} (cs : List Char) (hc : ¬ (c = '%')) :
    unquote (c :: cs) = c :: unquote cs := by
  rw [unquote.eq_def]
  split
  next h1 h2 rest heq =>
    exfalso
    apply hc
    simp only [List.cons.injEq] at heq
    exact heq.1
  next c' cs' heq =>
    simp only [List.cons.injEq] at heq
    rw [heq.1, heq.2]
  next heq => exact absurd heq (by simp)

theorem quote_cons (c : Char) (cs : List Char) :
    quote (c :: cs) =
      if quoteSafe c then c :: quote cs
      else '%' :: hexDigitChar (c.toNat / 16) :: hexDigitChar (c.toNat % 16) :: quote cs := rfl

theorem unquote_quote : ∀ {u : List Char}, (∀ c ∈ u, c.toNat < 256) →
    unquote (quote u) = u := by
  intro u
  induction u with
  | nil => intro _; rfl
  | cons c cs ih =>
    intro h
    have hcs : ∀ x ∈ cs, x.toNat < 256 := fun x hx => h x (by simp [hx])
    have hc : c.toNat < 256 := h c (by simp)
    rw [quote_cons]
    by_cases hs : quoteSafe c = true
    · rw [if_pos hs]
      have hcp : ¬ (c = '%') := by
        intro he
        rw [he] at hs
        exact absurd hs (by decide)
      rw [unquote_cons_ne (quote cs) hcp, ih hcs]
    · rw [if_neg hs]
      have hd1 : c.toNat / 16 < 16 := by omega
      have hd2 : c.toNat % 16 < 16 := Nat.mod_lt _ (by omega)
      rw [unquote_percent, if_pos (by
        rw [(hexDigitChar_spec _ hd1).1, (hexDigitChar_spec _ hd2).1]
        rfl)]
      rw [(hexDigitChar_spec _ hd1).2, (hexDigitChar_spec _ hd2).2, Nat.div_add_mod,
        Char.ofNat_toNat, ih hcs]

theorem quote_ne_nil : ∀ {u : List Char}, ¬ (u = []) → ¬ (quote u = []) := by
  intro u hu
  cases u with
  | nil => exact absurd rfl hu
  | cons c cs =>
    rw [quote_cons]
    by_cases hs : quoteSafe c = true
    · rw [if_pos hs]
      simp
    · rw [if_neg hs]
      simp

/-- C8: percent-decoding is a left inverse of percent-encoding, so
`parse_url` applied to `'/'` followed by the percent-encoding of a
nonempty byte string `u` recovers exactly `u`. -/
theorem claim_C8_parse_url_roundtrip (u : List Char) (hne : ¬ (u = []))
    (hbytes : ∀ c ∈ u, c.toNat < 256) :
    unquote (quote u) = u ∧ parse_url ('/' :: quote u) = some u := by
  refine ⟨unquote_quote hbytes, ?_⟩
  have h1 : stripSlash ('/' :: quote u) = quote u := rfl
  rw [parse_url, h1, if_neg (quote_ne_nil hne), unquote_quote hbytes]

theorem claim_C8_witness :
    unquote (quote (strL "https://example.com/a b")) = strL "https://example.com/a b"
    ∧ parse_url ('/' :: quote (strL "https://example.com/a b")) =
      some (strL "https://example.com/a b") :=
  claim_C8_parse_url_roundtrip (strL "https://example.com/a b") (by decide) (by decide)

theorem urlparseNP_error_msg {u e : List Char} (h : urlparseNP u = Except.error e) :
    e = strL "Invalid IPv6 URL" := by
  rw [urlparseNP] at h
  split at h
  · simp only [Except.error.injEq] at h
    exact h.symm
  · split at h
    · exact absurd h (by simp)
    · exact absurd h (by simp)

theorem handle_request_some_ne_missing (env : List Char) (fetch : List Char → FetchResult)
    (p url : List Char) (hparse : parse_url p = some url) :
    ¬ (handle_request env fetch p = Resp.err 400 (strL "Missing or invalid URL in path")) := by
  rw [handle_request.eq_def]
  split
  next heq =>
    rw [hparse] at heq
    exact absurd heq (by simp)
  next url' heq =>
    split
    next e heq2 =>
      intro he
      simp only [Resp.err.injEq] at he
      have := urlparseNP_error_msg heq2
      rw [this] at he
      exact absurd he.2 (by decide)
    next np heq2 =>
      split
      · intro he
        simp only [Resp.err.injEq] at he
        omega
      · split
        · intro he
          simp only [Resp.err.injEq] at he
          omega
        · split
          · split
            · intro he
              simp only [Resp.err.injEq] at he
              revert he
              show ¬ (_ ∧ ('E' :: strL "rror fetching URL: ") ++ _ =
                'M' :: strL "issing or invalid URL in path")
              intro he
              exact append_ne_head (by decide) he.2
            · simp
          · intro he
            simp only [Resp.err.injEq] at he
            omega
          · intro he
            simp only [Resp.err.injEq] at he
            omega
          · intro he
            simp only [Resp.err.injEq] at he
            omega

/-- C10: `parse_url` is total — it returns `None` exactly when the
request path minus one leading slash is empty — so the
400 "Missing or invalid URL in path" response is unreachable for any
request whose path starts with `'/'` and is longer than one character. -/
theorem claim_C10_parse_url_total :
    (∀ p : List Char, parse_url p = none ↔ stripSlash p = [])
    ∧ (∀ (maxR : Nat) (env : List Char) (fetch : List Char → FetchResult)
        (m : Nat) (st : RL) (p : List Char),
        p.head? = some '/' → 1 < p.length →
        ¬ ((do_GET maxR env fetch m st p).1 =
            Resp.err 400 (strL "Missing or invalid URL in path"))) := by
  constructor
  · intro p
    by_cases h : stripSlash p = []
    · rw [parse_url, if_pos h]
      simp [h]
    · rw [parse_url, if_neg h]
      simp [h]
  · intro maxR env fetch m st p hhead hlen
    cases p with
    | nil => exact absurd hhead (by simp)
    | cons c rest =>
      have hc : c = '/' := by
        simp only [List.head?_cons, Option.some.injEq] at hhead
        exact hhead
      subst hc
      have hrest : ¬ (rest = []) := by
        intro h0
        rw [h0] at hlen
        simp at hlen
      have hp : ¬ ('/' :: rest = strL "/") := by
        intro h0
        have : rest = [] := by
          have := congrArg List.length h0
          simp [strL] at this
          exact this
        exact absurd this hrest
      have hparse : parse_url ('/' :: rest) = some (unquote rest) := by
        have h1 : stripSlash ('/' :: rest) = rest := rfl
        rw [parse_url, h1, if_neg hrest]
      rw [do_GET_eq maxR env fetch m st ('/' :: rest) hp]
      by_cases hle : maxR ≤ (rlRoll m st).count
      · rw [if_pos hle]
        simp
      · rw [if_neg hle]
        show ¬ (handle_request env fetch ('/' :: rest) =
          Resp.err 400 (strL "Missing or invalid URL in path"))
        exact handle_request_some_ne_missing env fetch ('/' :: rest) (unquote rest) hparse

theorem claim_C10_witness :
    (parse_url (strL "/") = none ↔ stripSlash (strL "/") = [])
    ∧ ¬ ((do_GET 60 [] (fun _ => FetchResult.urlError []) 0 ⟨0, 0⟩ (strL "/a")).1 =
        Resp.err 400 (strL "Missing or invalid URL in path")) :=
  ⟨claim_C10_parse_url_total.1 (strL "/"),
   claim_C10_parse_url_total.2 60 [] (fun _ => FetchResult.urlError []) 0 ⟨0, 0⟩
     (strL "/a") (by decide) (by decide)⟩
